import Mathlib

/-!
Shallow embedding of the LR(1) parser generator (src/: symbol.rs, production.rs,
grammar.rs, first_and_follow.rs, lr1_item.rs, canonical_collection.rs,
parse_tables.rs, parse_tree.rs, action.rs, parser.rs).

Conventions of the embedding:
* Rust `usize`/`u32` values used as identifiers and counters become `Nat`
  (no arithmetic ever overflows here: values only increment).
* `HashMap`/`HashSet` become association lists / membership-deduplicated lists;
  only membership and keyed lookup of those containers is observable in the
  source, never iteration order of a hash container (iterations that feed
  results all happen over `Vec`s, `BTreeSet`s or via keyed lookups).
* `BTreeSet<LR1Item>` becomes a duplicate-free `List LR1Item`; set equality
  (the equality the source's `BTreeMap` keys use) is mutual containment.
* `panic!` and `.unwrap()` on `None` become `Except`/`Option` failure values.
* loops that run to a fixed point take an explicit fuel argument large enough
  to reach the fixed point; loops exit early exactly when the source exits.
-/

namespace LR

/-- Symbols are the small integer ids handed out by `SymbolDb` (symbol.rs). -/
abbrev Symbol := Nat

/-- symbol.rs `SymbolDb`: interning table. `fromLabel` is the label→id map
(newest binding first; labels are never re-bound because `new_symbol` rejects
duplicates), `terminals`/`nonTerminals` are the two membership sets. -/
structure SymbolDb where
  next : Nat
  fromLabel : List (String × Symbol)
  terminals : List Symbol
  nonTerminals : List Symbol
  deriving DecidableEq

/-- symbol.rs `SymbolDb::new_symbol`: fails (source: panic) when the label is
already registered, otherwise hands out id `next` and increments it. -/
def SymbolDb.newSymbol (db : SymbolDb) (label : String) :
    Except String (SymbolDb × Symbol) :=
  if (db.fromLabel.lookup label).isSome then
    .error "the symbol is already defined"
  else
    .ok ({ db with next := db.next + 1,
                   fromLabel := (label, db.next) :: db.fromLabel }, db.next)

/-- symbol.rs `SymbolDb::new_nonterminal`. -/
def SymbolDb.newNonterminal (db : SymbolDb) (label : String) :
    Except String (SymbolDb × Symbol) := do
  let (db1, s) ← db.newSymbol label
  .ok ({ db1 with nonTerminals := s :: db1.nonTerminals }, s)

/-- symbol.rs `SymbolDb::new_terminal`. -/
def SymbolDb.newTerminal (db : SymbolDb) (label : String) :
    Except String (SymbolDb × Symbol) := do
  let (db1, s) ← db.newSymbol label
  .ok ({ db1 with terminals := s :: db1.terminals }, s)

/-- The empty interning table (the record `SymbolDb::new` starts from). -/
def SymbolDb.init : SymbolDb := ⟨0, [], [], []⟩

/-- symbol.rs `SymbolDb::new` as the `Except` chain registering GOAL, $, ε. -/
def SymbolDb.newE : Except String SymbolDb := do
  let (db1, _) ← SymbolDb.init.newNonterminal "GOAL"
  let (db2, _) ← db1.newTerminal "$"
  let (db3, _) ← db2.newTerminal "ε"
  .ok db3

/-- symbol.rs `SymbolDb::new`: registers, in order, GOAL (nonterminal, id 0),
$ (terminal, id 1), ε (terminal, id 2); these registrations never fail. -/
def SymbolDb.new : SymbolDb :=
  match SymbolDb.newE with
  | .ok db => db
  | .error _ => SymbolDb.init


/-- symbol.rs `SymbolDb::is_terminal`. -/
def SymbolDb.isTerminal (db : SymbolDb) (s : Symbol) : Bool := s ∈ db.terminals

/-- symbol.rs `SymbolDb::epsilon`. The source `.expect`s the lookup; in every
table produced by `SymbolDb::new` the entry is `("ε", 2)`, so the default on
the (unreachable for really-constructed tables) missing case is 2. -/
def SymbolDb.epsilon (db : SymbolDb) : Symbol := (db.fromLabel.lookup "ε").getD 2

/-- symbol.rs `SymbolDb::goal` (see `SymbolDb.epsilon` for the default). -/
def SymbolDb.goal (db : SymbolDb) : Symbol := (db.fromLabel.lookup "GOAL").getD 0

/-- symbol.rs `SymbolDb::eoi` (see `SymbolDb.epsilon` for the default). -/
def SymbolDb.eoi (db : SymbolDb) : Symbol := (db.fromLabel.lookup "$").getD 1

/-- A symbol is registered when some label maps to it. -/
def SymbolDb.isRegistered (db : SymbolDb) (s : Symbol) : Prop :=
  ∃ l, (l, s) ∈ db.fromLabel

instance (db : SymbolDb) (s : Symbol) : Decidable (db.isRegistered s) := by
  unfold SymbolDb.isRegistered
  exact decidable_of_iff (∃ e ∈ db.fromLabel, e.2 = s)
    ⟨fun ⟨e, he, h2⟩ => ⟨e.1, by cases e; simp_all⟩,
     fun ⟨l, hl⟩ => ⟨(l, s), hl, rfl⟩⟩

/-- production.rs `Production`. -/
structure Production where
  lhs : Symbol
  rhs : List Symbol
  deriving DecidableEq

/-- grammar.rs `group_by_lhs`, one production at a time: append to the group of
`p.lhs` if it exists, otherwise start a new group. -/
def addToGroup : List (Symbol × List Production) → Production →
    List (Symbol × List Production)
  | [], p => [(p.lhs, [p])]
  | (k, v) :: rest, p =>
    if k = p.lhs then (k, v ++ [p]) :: rest else (k, v) :: addToGroup rest p

/-- grammar.rs `group_by_lhs`. -/
def groupByLhs (ps : List Production) : List (Symbol × List Production) :=
  ps.foldl addToGroup []

/-- grammar.rs `Grammar`: interning table, user start symbol and the
productions grouped by left-hand side. -/
structure Grammar where
  symbolDb : SymbolDb
  startSymbol : Symbol
  productions : List (Symbol × List Production)
  deriving DecidableEq

/-- grammar.rs `Grammar::new`: appends the synthesized production
`GOAL → start_symbol $` and groups by lhs. It performs no validation of the
symbols occurring in the productions and never fails. -/
def Grammar.new (db : SymbolDb) (start : Symbol) (ps : List Production) :
    Grammar :=
  ⟨db, start, groupByLhs (ps ++ [⟨db.goal, [start, db.eoi]⟩])⟩

/-- grammar.rs `Grammar::productions`: the callers all treat a missing group
like an empty one (`if let Some(ps) = ...`), so the accessor returns `[]`
for a missing key. -/
def Grammar.productionsOf (g : Grammar) (lhs : Symbol) : List Production :=
  (g.productions.lookup lhs).getD []

/-! ## Symbol sets as duplicate-free lists (first_and_follow.rs `HashSet`s) -/

/-- `HashSet::insert` on a set represented as a deduplicated list. -/
def insertSym (l : List Symbol) (s : Symbol) : List Symbol :=
  if s ∈ l then l else l ++ [s]

/-- Insert every element of `xs`. -/
def insertAll (l : List Symbol) (xs : List Symbol) : List Symbol :=
  xs.foldl insertSym l

/-- `HashSet::remove`. -/
def removeSym (l : List Symbol) (s : Symbol) : List Symbol :=
  l.filter (fun x => x ≠ s)

/-- A `HashMap<Symbol, HashSet<Symbol>>` as an association list. -/
abbrev FMap := List (Symbol × List Symbol)

/-- `HashMap::insert` (overwrite an existing binding, else append). -/
def insertF (m : FMap) (k : Symbol) (v : List Symbol) : FMap :=
  if (m.lookup k).isSome then
    m.map (fun e => if e.1 = k then (k, v) else e)
  else m ++ [(k, v)]

/-- `get_mut` followed by an update: rewrite the value at `k` when the key is
present, do nothing otherwise (mirrors the source's `if let Some(..) = get_mut`). -/
def updF (m : FMap) (k : Symbol) (f : List Symbol → List Symbol) : FMap :=
  m.map (fun e => if e.1 = k then (e.1, f e.2) else e)

/-! ## FIRST (first_and_follow.rs `first`) -/

/-- The inner walk of first_and_follow.rs `first`: for a production
`A → a₁ … aₙ` accumulate `FIRST(aᵢ)` left to right; when some `FIRST(aᵢ)`
lacks ε, drop ε from the accumulator and stop. A symbol with no entry in the
map is skipped (the walk continues), exactly as in the source. -/
def firstContrib (εs : Symbol) (m : FMap) : List Symbol → List Symbol →
    List Symbol
  | [], acc => acc
  | s :: rest, acc =>
    match m.lookup s with
    | none => firstContrib εs m rest acc
    | some fs =>
      let acc1 := insertAll acc fs
      if εs ∈ fs then firstContrib εs m rest acc1 else removeSym acc1 εs

/-- One production's contribution folded into `FIRST(lhs)` (present keys only,
as in the source's `get_mut`). -/
def firstProd (εs : Symbol) (m : FMap) (p : Production) : FMap :=
  updF m p.lhs (fun fs => insertAll fs (firstContrib εs m p.rhs []))

/-- One full pass of the FIRST fixed-point loop over all nonterminals. -/
def firstPass (g : Grammar) (m : FMap) : FMap :=
  g.symbolDb.nonTerminals.foldl
    (fun m nt => (g.productionsOf nt).foldl (firstProd g.symbolDb.epsilon) m) m

/-- Iterate a pass until it changes nothing (the source's `done` flag) with an
explicit fuel bound. -/
def fixIter (pass : FMap → FMap) : Nat → FMap → FMap
  | 0, m => m
  | f + 1, m =>
    let m1 := pass m
    if m1 = m then m else fixIter pass f m1

/-- The initial FIRST map: `FIRST(t) = {t}` for terminals, `∅` for
nonterminals (inserted in that order, later bindings overwriting). -/
def firstInit (g : Grammar) : FMap :=
  g.symbolDb.nonTerminals.foldl (fun m nt => insertF m nt [])
    (g.symbolDb.terminals.foldl (fun m t => insertF m t [t]) [])

/-- Fuel that upper-bounds the number of fixed-point passes: every pass short
of the fixed point adds at least one symbol to one of the sets. -/
def ffFuel (g : Grammar) : Nat :=
  (g.symbolDb.nonTerminals.length + g.symbolDb.terminals.length + 1) *
    (g.symbolDb.next + 2) + 1

/-- first_and_follow.rs `first`. -/
def firstMap (g : Grammar) : FMap := fixIter (firstPass g) (ffFuel g) (firstInit g)

/-! ## FOLLOW (first_and_follow.rs `follow`) -/

/-- One step of the right-to-left walk of a production's rhs, threading the
FOLLOW map and the `tail` set (first_and_follow.rs `follow`, inner loop):
a terminal resets `tail` to itself; a nonterminal first receives `tail` into
its FOLLOW set, then extends or replaces `tail` using its FIRST set. -/
def followStep (db : SymbolDb) (first : FMap) (st : FMap × List Symbol)
    (b : Symbol) : FMap × List Symbol :=
  let (m, tail) := st
  if db.isTerminal b then (m, [b])
  else
    let m1 := updF m b (fun fb => insertAll fb tail)
    match first.lookup b with
    | none => (m1, tail)
    | some fb =>
      if db.epsilon ∈ fb then (m1, insertAll tail (removeSym fb db.epsilon))
      else (m1, fb)

/-- Process one production: `tail` starts as the current `FOLLOW(lhs)` and the
rhs is walked in reverse. -/
def followProd (db : SymbolDb) (first : FMap) (m : FMap) (p : Production) :
    FMap :=
  (p.rhs.reverse.foldl (followStep db first) (m, (m.lookup p.lhs).getD [])).1

/-- One full pass of the FOLLOW fixed-point loop. -/
def followPass (g : Grammar) (first : FMap) (m : FMap) : FMap :=
  g.symbolDb.nonTerminals.foldl
    (fun m nt => (g.productionsOf nt).foldl (followProd g.symbolDb first) m) m

/-- The initial FOLLOW map: `∅` for every nonterminal, then `$` added to
`FOLLOW(GOAL)` (the source unwraps the `GOAL` entry; `updF` is a no-op when
`GOAL` is not a nonterminal, a case the source would panic in). -/
def followInit (g : Grammar) : FMap :=
  updF (g.symbolDb.nonTerminals.foldl (fun m nt => insertF m nt []) [])
    g.symbolDb.goal (fun v => insertSym v g.symbolDb.eoi)

/-- first_and_follow.rs `follow`. -/
def followMap (g : Grammar) (first : FMap) : FMap :=
  fixIter (followPass g first) (ffFuel g) (followInit g)

/-- first_and_follow.rs `FirstAndFollow`. -/
structure FirstAndFollow where
  first : FMap
  follow : FMap
  deriving DecidableEq

/-- first_and_follow.rs `FirstAndFollow::new`. -/
def FirstAndFollow.new (g : Grammar) : FirstAndFollow :=
  ⟨firstMap g, followMap g (firstMap g)⟩

/-- Pointwise growth of symbol-set maps: every binding of `m1` persists in
`m2` with a superset value. -/
def FSub (m1 m2 : FMap) : Prop :=
  ∀ k v, m1.lookup k = some v → ∃ w, m2.lookup k = some w ∧ ∀ x ∈ v, x ∈ w

/-- The symbol `s` occurs in no value set of the map. -/
def FAvoid (s : Symbol) (m : FMap) : Prop :=
  ∀ k v, m.lookup k = some v → s ∉ v

/-! ## LR(1) items, closure, goto (lr1_item.rs, canonical_collection.rs) -/

/-- lr1_item.rs `LR1Item`. -/
structure LR1Item where
  production : Production
  dotPosition : Nat
  lookahead : Symbol
  deriving DecidableEq

/-- lr1_item.rs `symbols_after_dot`: the rhs suffix from the dot (inclusive). -/
def LR1Item.symbolsAfterDot (i : LR1Item) : List Symbol :=
  i.production.rhs.drop i.dotPosition

/-- lr1_item.rs `is_target`: lhs is GOAL and the lookahead is $. -/
def LR1Item.isTarget (i : LR1Item) (db : SymbolDb) : Bool :=
  i.production.lhs = db.goal ∧ i.lookahead = db.eoi

/-- A `BTreeSet<LR1Item>` as a duplicate-free list. -/
abbrev ItemSet := List LR1Item

/-- Set insertion of an item. -/
def insertIt (l : ItemSet) (x : LR1Item) : ItemSet :=
  if x ∈ l then l else l ++ [x]

/-- Set equality of item sets (the equality `BTreeSet<LR1Item>` uses, and the
relation under which the canonical collection keys its sets). -/
def setEqI (a b : ItemSet) : Prop := (∀ x ∈ a, x ∈ b) ∧ ∀ x ∈ b, x ∈ a

instance (a b : ItemSet) : Decidable (setEqI a b) := by
  unfold setEqI; infer_instance

/-- canonical_collection.rs `first` (FIRST of a sentence): union the FIRST
sets of the symbols left to right, stopping after the first whose FIRST lacks
ε (symbols without a FIRST entry are skipped); ε is removed from the result. -/
def ccFirst (g : Grammar) (ff : FirstAndFollow) (symbols : List Symbol) :
    List Symbol :=
  removeSym (ccFirstGo g.symbolDb.epsilon ff.first symbols []) g.symbolDb.epsilon
where
  ccFirstGo (εs : Symbol) (m : FMap) : List Symbol → List Symbol → List Symbol
    | [], acc => acc
    | s :: rest, acc =>
      match m.lookup s with
      | none => ccFirstGo εs m rest acc
      | some tmp =>
        if εs ∈ tmp then ccFirstGo εs m rest (insertAll acc tmp)
        else insertAll acc tmp

/-- The inner double loop of one closure pass: for each lookahead `b` of the
precomputed FIRST set, insert the item `[p → ·γ, b]`. -/
def genInner (fst : List Symbol) (acc : ItemSet) (p : Production) : ItemSet :=
  fst.foldl (fun acc b => insertIt acc ⟨p, 0, b⟩) acc

/-- One item's contribution in one pass of canonical_collection.rs `closure`:
for an item `[A → α·Bβ, a]` with nonterminal `B` after the dot, each
production `B → γ` and each `b ∈ FIRST(β a)` yields the item `[B → ·γ, b]`. -/
def genStep (g : Grammar) (ff : FirstAndFollow) (acc : ItemSet) (i : LR1Item) :
    ItemSet :=
  match i.symbolsAfterDot with
  | [] => acc
  | s :: rest =>
    if g.symbolDb.isTerminal s then acc
    else
      (g.productionsOf s).foldl
        (genInner (ccFirst g ff (rest ++ [i.lookahead]))) acc

/-- The items one pass of canonical_collection.rs `closure` generates from
`cur`. -/
def genItems (g : Grammar) (ff : FirstAndFollow) (cur : ItemSet) : ItemSet :=
  cur.foldl (genStep g ff) []

/-- One iteration of the closure loop: add everything the current set
generates. -/
def closStep (g : Grammar) (ff : FirstAndFollow) (cur : ItemSet) : ItemSet :=
  (genItems g ff cur).foldl insertIt cur

/-- The closure loop: iterate `closStep`, stopping (like the source) as soon
as an iteration leaves the size unchanged. -/
def closLoop (g : Grammar) (ff : FirstAndFollow) : Nat → ItemSet → ItemSet
  | 0, cur => cur
  | f + 1, cur =>
    let next := closStep g ff cur
    if next.length = cur.length then next else closLoop g ff f next

/-- Every production of the grammar, in group order. -/
def allProds (g : Grammar) : List Production :=
  g.productions.foldr (fun e acc => e.2 ++ acc) []

/-- Every symbol occurring in some FIRST set of `ff`. -/
def allFirstSyms (ff : FirstAndFollow) : List Symbol :=
  ff.first.foldr (fun e acc => e.2 ++ acc) []

/-- Fuel that provably reaches the closure fixed point: each continuing
iteration adds at least one of the at most `|allProds| * |allFirstSyms|`
generable items. -/
def closureFuel (g : Grammar) (ff : FirstAndFollow) : Nat :=
  (allProds g).length * (allFirstSyms ff).length + 1

/-- Every item one closure pass can generate: a production of the grammar
with the dot at 0 and a lookahead drawn from some FIRST set. -/
def genUniv (g : Grammar) (ff : FirstAndFollow) : ItemSet :=
  (allProds g).foldr
    (fun p acc => ((allFirstSyms ff).map (fun b => (⟨p, 0, b⟩ : LR1Item))) ++ acc)
    []

/-- canonical_collection.rs `closure`. -/
def closure (g : Grammar) (ff : FirstAndFollow) (items : ItemSet) : ItemSet :=
  closLoop g ff (closureFuel g ff) (items.foldl insertIt [])

/-- canonical_collection.rs `go_to`: advance the dot over `x` in every item
that has `x` right after its dot, then take the closure. -/
def goTo (g : Grammar) (ff : FirstAndFollow) (items : ItemSet) (x : Symbol) :
    ItemSet :=
  closure g ff
    (items.foldl
      (fun acc i =>
        match i.symbolsAfterDot with
        | [] => acc
        | s :: _ =>
          if s = x then insertIt acc ⟨i.production, i.dotPosition + 1, i.lookahead⟩
          else acc)
      [])

/-! ## Canonical collection (canonical_collection.rs) -/

/-- canonical_collection.rs `CanonicalCollection`. -/
structure CanonicalCollection where
  nextNumber : Nat
  intToSet : List (Nat × ItemSet)
  setToInt : List (ItemSet × Nat)
  transitions : List ((Nat × Symbol) × Nat)
  unprocessed : List ItemSet
  deriving DecidableEq

/-- Keyed lookup in `setToInt` (a `BTreeMap` keyed by set equality). -/
def lookupSet (l : List (ItemSet × Nat)) (s : ItemSet) : Option Nat :=
  (l.find? (fun e => setEqI e.1 s)).map (fun e => e.2)

/-- Keyed lookup in the transition map. -/
def lookupTr (tr : List ((Nat × Symbol) × Nat)) (key : Nat × Symbol) :
    Option Nat :=
  (tr.find? (fun e => e.1 = key)).map (fun e => e.2)

/-- canonical_collection.rs `CanonicalCollection::contains`. -/
def CanonicalCollection.containsSet (cc : CanonicalCollection) (s : ItemSet) :
    Bool :=
  (lookupSet cc.setToInt s).isSome

/-- canonical_collection.rs `CanonicalCollection::add`: fails (source: panic)
when the set is already present, else numbers it `nextNumber` and enqueues
it as unprocessed. -/
def CanonicalCollection.add (cc : CanonicalCollection) (s : ItemSet) :
    Except String CanonicalCollection :=
  if cc.containsSet s then .error "set is already in CC"
  else
    .ok ⟨cc.nextNumber + 1,
         cc.intToSet ++ [(cc.nextNumber, s)],
         cc.setToInt ++ [(s, cc.nextNumber)],
         cc.transitions,
         cc.unprocessed ++ [s]⟩

/-- canonical_collection.rs `CanonicalCollection::add_transition`: both
endpoint sets must already be in the collection, and an existing transition
for the same key must agree (else the source panics). -/
def CanonicalCollection.addTransition (cc : CanonicalCollection)
    (src : ItemSet) (onSym : Symbol) (tgt : ItemSet) :
    Except String CanonicalCollection :=
  match lookupSet cc.setToInt src, lookupSet cc.setToInt tgt with
  | some fromN, some toN =>
    match lookupTr cc.transitions (fromN, onSym) with
    | some existing =>
      if existing = toN then .ok cc
      else .error "attempting to alter an existing transition"
    | none =>
      .ok { cc with transitions := cc.transitions ++ [((fromN, onSym), toN)] }
  | _, _ => .error "endpoint not in CC"

/-- The body of canonical_collection.rs `build`'s inner item loop, for one
unprocessed set `ccI`: for each item with a nonempty suffix after the dot,
compute the goto set on the first suffix symbol, add it when new and record
the transition. -/
def processItems (g : Grammar) (ff : FirstAndFollow) (ccI : ItemSet) :
    List LR1Item → CanonicalCollection → Except String CanonicalCollection
  | [], cc => .ok cc
  | item :: rest, cc =>
    match item.symbolsAfterDot with
    | [] => processItems g ff ccI rest cc
    | x :: _ =>
      match (if cc.containsSet (goTo g ff ccI x) then .ok cc
             else cc.add (goTo g ff ccI x) :
          Except String CanonicalCollection) with
      | .error e => .error e
      | .ok cc1 =>
        match cc1.addTransition ccI x (goTo g ff ccI x) with
        | .error e => .error e
        | .ok cc2 => processItems g ff ccI rest cc2

/-- Process one drained batch of unprocessed sets. -/
def processSets (g : Grammar) (ff : FirstAndFollow) :
    List ItemSet → CanonicalCollection → Except String CanonicalCollection
  | [], cc => .ok cc
  | s :: rest, cc => do
    processSets g ff rest (← processItems g ff s s cc)

/-- The outer loop of canonical_collection.rs `build`: drain and process the
unprocessed queue until it stays empty (the source's `done` flag is false
exactly while new sets keep appearing in the queue). -/
def ccLoop (g : Grammar) (ff : FirstAndFollow) :
    Nat → CanonicalCollection → Except String CanonicalCollection
  | 0, _ => .error "out of fuel"
  | f + 1, cc =>
    match cc.unprocessed with
    | [] => .ok cc
    | _ => do
      ccLoop g ff f (← processSets g ff cc.unprocessed { cc with unprocessed := [] })

/-- Fuel for the outer build loop: the number of batches is bounded by the
number of distinct item sets, which is at most exponential in the number of
possible items. -/
def ccFuel (g : Grammar) (ff : FirstAndFollow) : Nat :=
  2 ^ ((allProds g).length * (maxRhsLen g + 2) * ((allFirstSyms ff).length + 2) + 2)
where
  maxRhsLen (g : Grammar) : Nat :=
    (allProds g).foldr (fun p acc => max p.rhs.length acc) 0

/-- The seed item of canonical_collection.rs `build`:
`[GOAL → ·start_symbol, $]` — note the seed production's rhs is
`[start_symbol]`, not the grammar's synthesized `[start_symbol, $]`. -/
def ccSeed (g : Grammar) : LR1Item :=
  ⟨⟨g.symbolDb.goal, [g.startSymbol]⟩, 0, g.symbolDb.eoi⟩

/-- The initial state CC₀ computed by canonical_collection.rs `build`. -/
def cc0Set (g : Grammar) : ItemSet := closure g (FirstAndFollow.new g) [ccSeed g]

/-- canonical_collection.rs `build`: add CC₀ as state 0, then explore with
goto until no unprocessed set remains. -/
def ccBuild (g : Grammar) : Except String CanonicalCollection :=
  match (⟨0, [], [], [], []⟩ : CanonicalCollection).add (cc0Set g) with
  | .error e => .error e
  | .ok cc1 =>
    ccLoop g (FirstAndFollow.new g) (ccFuel g (FirstAndFollow.new g)) cc1

/-- Every numbered state resolves, through the set-keyed map, back to its own
number (the two `BTreeMap`s of the collection stay inverse to each other). -/
def NumbersOk (cc : CanonicalCollection) : Prop :=
  ∀ e ∈ cc.intToSet, lookupSet cc.setToInt e.2 = some e.1

/-- Every set-keyed binding has a numbered state with an equal set. -/
def SetsOk (cc : CanonicalCollection) : Prop :=
  ∀ e ∈ cc.setToInt, ∃ S, (e.2, S) ∈ cc.intToSet ∧ setEqI S e.1

/-- State `n` has a recorded transition on `x` whose target state's set
contains the item `adv`. -/
def TargetOk (cc : CanonicalCollection) (n : Nat) (x : Symbol)
    (adv : LR1Item) : Prop :=
  ∃ j Sj, lookupTr cc.transitions (n, x) = some j ∧ (j, Sj) ∈ cc.intToSet ∧
    adv ∈ Sj

/-- State `n` with item set `S` has been fully explored: every item with a
nonempty suffix after the dot has a recorded transition on the first suffix
symbol, whose target contains the dot-advanced item. -/
def DoneSt (cc : CanonicalCollection) (n : Nat) (S : ItemSet) : Prop :=
  ∀ item ∈ S, ∀ x tl, item.symbolsAfterDot = x :: tl →
    TargetOk cc n x ⟨item.production, item.dotPosition + 1, item.lookahead⟩

/-- The collection only grows: numbered states persist and recorded
transitions persist. -/
def ExtendsCC (cc cc' : CanonicalCollection) : Prop :=
  (∀ e ∈ cc.intToSet, e ∈ cc'.intToSet) ∧
  (∀ key j, lookupTr cc.transitions key = some j →
    lookupTr cc'.transitions key = some j)

/-- Every numbered state is either still queued as unprocessed or fully
explored. -/
def QueueInv (cc : CanonicalCollection) : Prop :=
  ∀ e ∈ cc.intToSet, e.2 ∈ cc.unprocessed ∨ DoneSt cc e.1 e.2

/-! ## Actions and parse tables (action.rs, parse_tables.rs) -/

/-- action.rs `Action`. -/
inductive Action where
  | accept : Action
  | shift (state : Nat) : Action
  | reduce (p : Production) : Action
  deriving DecidableEq

/-- The ACTION table, keyed by (state, symbol). -/
abbrev ActionTbl := List ((Nat × Symbol) × Action)

/-- The GOTO table, keyed by (state, symbol). -/
abbrev GotoTbl := List ((Nat × Symbol) × Nat)

/-- Keyed lookup in the ACTION table. -/
def lookupAct (t : ActionTbl) (key : Nat × Symbol) : Option Action :=
  (t.find? (fun e => e.1 = key)).map (fun e => e.2)

/-- `HashMap::insert` into the ACTION table (overwrite, else append). -/
def insertAct (t : ActionTbl) (key : Nat × Symbol) (a : Action) : ActionTbl :=
  if (lookupAct t key).isSome then
    t.map (fun e => if e.1 = key then (key, a) else e)
  else t ++ [(key, a)]

/-- parse_tables.rs `ParseTables::add_action` with its conflict policy: an
equal action is a no-op; a Shift arriving over a Reduce overwrites it (and a
diagnostic is printed); a Reduce arriving over a Shift is dropped (diagnostic
printed); Reduce over Reduce is fatal; every other mismatch is fatal. -/
def addAct (t : ActionTbl) (state : Nat) (sym : Symbol) (action : Action) :
    Except String ActionTbl :=
  let key := (state, sym)
  match lookupAct t key with
  | some other =>
    if other = action then .ok t
    else
      match action, other with
      | .shift _, .reduce _ => .ok (insertAct t key action)
      | .reduce _, .shift _ => .ok t
      | .reduce _, .reduce _ => .error "reduce/reduce conflict"
      | _, _ => .error "unknown conflict"
  | none => .ok (t ++ [(key, action)])

/-- parse_tables.rs `ParseTables::add_transition`: a second binding for the
same GOTO key is fatal. -/
def addGoto (t : GotoTbl) (src : Nat) (onSym : Symbol) (tgt : Nat) :
    Except String GotoTbl :=
  match lookupTr t (src, onSym) with
  | some _ => .error "attempt to replace an existing entry in goto table"
  | none => .ok (t ++ [((src, onSym), tgt)])

/-- parse_tables.rs `ParseTables`. -/
structure ParseTables where
  actionTable : ActionTbl
  gotoTable : GotoTbl
  deriving DecidableEq

/-- parse_tables.rs `ParseTables::action`. -/
def ParseTables.action (pt : ParseTables) (state : Nat) (sym : Symbol) :
    Option Action :=
  lookupAct pt.actionTable (state, sym)

/-- parse_tables.rs `ParseTables::transition`. -/
def ParseTables.transition (pt : ParseTables) (state : Nat) (sym : Symbol) :
    Option Nat :=
  lookupTr pt.gotoTable (state, sym)

/-- No Shift action is keyed on the symbol `εs` anywhere in the table. -/
def NoEpsShift (εs : Symbol) (t : ActionTbl) : Prop :=
  ∀ st j, lookupAct t (st, εs) ≠ some (.shift j)

/-- No GOTO entry is keyed on the symbol `εs` anywhere in the table. -/
def NoEpsGoto (εs : Symbol) (t : GotoTbl) : Prop :=
  ∀ st, lookupTr t (st, εs) = none

/-- The per-item case analysis of parse_tables.rs `build`: shift for a
non-ε terminal after the dot that has a transition; accept for a completed
target item; reduce (on the item's lookahead) for a completed item or an
ε production; everything else is a fatal internal error. -/
def ptItem (g : Grammar) (cc : CanonicalCollection) (i : Nat) (item : LR1Item)
    (t : ActionTbl) : Except String ActionTbl :=
  match item.symbolsAfterDot with
  | c :: _ =>
    if c ≠ g.symbolDb.epsilon ∧ (lookupTr cc.transitions (i, c)).isSome then
      if g.symbolDb.isTerminal c then
        match lookupTr cc.transitions (i, c) with
        | some j => addAct t i c (.shift j)
        | none => .ok t
      else .ok t
    else
      if c = g.symbolDb.epsilon then addAct t i item.lookahead (.reduce item.production)
      else .error "something went terribly wrong while building parse tables"
  | [] =>
    if item.isTarget g.symbolDb then addAct t i g.symbolDb.eoi .accept
    else addAct t i item.lookahead (.reduce item.production)

/-- Fold `ptItem` over the items of one state. -/
def ptItems (g : Grammar) (cc : CanonicalCollection) (i : Nat) :
    List LR1Item → ActionTbl → Except String ActionTbl
  | [], t => .ok t
  | item :: rest, t => do ptItems g cc i rest (← ptItem g cc i item t)

/-- The GOTO-filling loop over the nonterminals for one state. -/
def ptGotos (cc : CanonicalCollection) (i : Nat) :
    List Symbol → GotoTbl → Except String GotoTbl
  | [], t => .ok t
  | nt :: rest, t =>
    match lookupTr cc.transitions (i, nt) with
    | some j => do ptGotos cc i rest (← addGoto t i nt j)
    | none => ptGotos cc i rest t

/-- parse_tables.rs `build`, per state: the item loop then the nonterminal
GOTO loop. -/
def ptStates (g : Grammar) (cc : CanonicalCollection) :
    List (Nat × ItemSet) → ParseTables → Except String ParseTables
  | [], pt => .ok pt
  | (i, s) :: rest, pt => do
    let at1 ← ptItems g cc i s pt.actionTable
    let gt1 ← ptGotos cc i g.symbolDb.nonTerminals pt.gotoTable
    ptStates g cc rest ⟨at1, gt1⟩

/-- parse_tables.rs `build`. -/
def ptBuild (g : Grammar) : Except String ParseTables := do
  let cc ← ccBuild g
  ptStates g cc cc.intToSet ⟨[], []⟩

/-! ## Parse trees and the driver (parse_tree.rs, parser.rs) -/

/-- parse_tree.rs `ParseTree`: a symbol, the token current when the node was
made, and the ordered children. -/
inductive ParseTree (T : Type) where
  | node (symbol : Symbol) (token : T) (children : List (ParseTree T))

/-- parse_tree.rs `symbol`. -/
def ParseTree.symbol : ParseTree T → Symbol
  | .node s _ _ => s

/-- parse_tree.rs `token`. -/
def ParseTree.token : ParseTree T → T
  | .node _ t _ => t

/-- parse_tree.rs `children`. -/
def ParseTree.children : ParseTree T → List (ParseTree T)
  | .node _ _ cs => cs

mutual

/-- The tokens on the leaves (childless nodes) of a tree, left to right. -/
def leafTokens : ParseTree T → List T
  | .node _ t [] => [t]
  | .node _ _ (c :: cs) => leafTokensList (c :: cs)

/-- `leafTokens` over a forest. -/
def leafTokensList : List (ParseTree T) → List T
  | [] => []
  | c :: cs => leafTokens c ++ leafTokensList cs

end

/-- The structured failures of parser.rs `parse`; the first three correspond
to the three panic sites the specification names (`UnexpectedToken` for a
missing ACTION entry, `MissingGoto` for a missing GOTO entry after a reduce,
`UnexpectedEndOfInput` for `iter.next().unwrap()` on an exhausted iterator),
`stackUnderflow` models the `.unwrap()`s on popped-empty stacks, and
`fuelOut` is the embedding's explicit bound on loop iterations. -/
inductive ParseError where
  | unexpectedToken (state : Nat) (symbol : Symbol)
  | missingGoto (state : Nat) (nonterminal : Symbol)
  | unexpectedEndOfInput
  | stackUnderflow
  | fuelOut
  deriving DecidableEq

/-- The `Action::Reduce(p)` arm of parser.rs `parse`: filter ε out of the rhs,
pop that many states and subtrees, reattach the subtrees in their original
order under a new `p.lhs` node carrying the current token, and push the GOTO
state of the new stack top. -/
def reduceStep (T : Type) (pt : ParseTables) (εs : Symbol) (p : Production)
    (tok : T) (ss : List Nat) (ps : List (ParseTree T)) :
    Except ParseError (List Nat × List (ParseTree T)) :=
  let size := (p.rhs.filter (fun s => s ≠ εs)).length
  if size ≤ ps.length then
    let node : ParseTree T := .node p.lhs tok ((ps.take size).reverse)
    match ss.drop size with
    | [] => .error .stackUnderflow
    | cur :: restSS =>
      match pt.transition cur p.lhs with
      | some next => .ok (next :: cur :: restSS, node :: ps.drop size)
      | none => .error (.missingGoto cur p.lhs)
  else .error .stackUnderflow

/-- The main loop of parser.rs `parse`. State: the state stack (top first),
the parse stack (top first), the current token with its symbol, and the
remaining tokens. Accept stops the loop and yields the parse stack. -/
def parseLoop (T : Type) (pt : ParseTables) (εs : Symbol)
    (classify : T → Symbol) :
    Nat → List Nat → List (ParseTree T) → T → Symbol → List T →
    Except ParseError (List (ParseTree T))
  | 0, _, _, _, _, _ => .error .fuelOut
  | _ + 1, [], _, _, _, _ => .error .stackUnderflow
  | f + 1, state :: ss, ps, tok, sym, rest =>
    match pt.action state sym with
    | none => .error (.unexpectedToken state sym)
    | some .accept => .ok ps
    | some (.shift next) =>
      match rest with
      | [] => .error .unexpectedEndOfInput
      | tok1 :: rest1 =>
        parseLoop T pt εs classify f (next :: state :: ss)
          (.node sym tok [] :: ps) tok1 (classify tok1) rest1
    | some (.reduce p) => do
      let (ss1, ps1) ← reduceStep T pt εs p tok (state :: ss) ps
      parseLoop T pt εs classify f ss1 ps1 tok sym rest

/-- parser.rs `Parser`. -/
structure Parser where
  grammar : Grammar
  parseTables : ParseTables

/-- parser.rs `Parser::new` (the table construction may reject the grammar). -/
def Parser.new (g : Grammar) : Except String Parser :=
  (ptBuild g).map (fun pt => ⟨g, pt⟩)

/-- parser.rs `Parser::parse`: state stack starts as `[0]`, the first token
is taken before the loop (an empty input fails there), and after Accept the
top of the parse stack — if any — is returned. -/
def Parser.parse (T : Type) (pr : Parser) (fuel : Nat) (tokens : List T)
    (classify : T → Symbol) : Except ParseError (Option (ParseTree T)) :=
  match tokens with
  | [] => .error .unexpectedEndOfInput
  | tok :: rest =>
    (parseLoop T pr.parseTables pr.grammar.symbolDb.epsilon classify fuel
        [0] [] tok (classify tok) rest).map
      (fun ps => ps.head?)

/-! ## The specification's stated initial state, and concrete examples -/

/-- Modelled from the spec (§4.5): the initial state as the specification
literally states it, `CC₀ = closure({ [GOAL → ·start_symbol $, $] })`, i.e.
the seed production's rhs is `[start_symbol, $]`. To be compared with the
seed of `ccBuild`, whose rhs is `[start_symbol]`. -/
def specCC0 (g : Grammar) : ItemSet :=
  closure g (FirstAndFollow.new g)
    [⟨⟨g.symbolDb.goal, [g.startSymbol, g.symbolDb.eoi]⟩, 0, g.symbolDb.eoi⟩]

/-- The interning table of parser.rs test01: `SymbolDb::new` plus nonterminal
`E1` (id 3) and terminals `(` (id 4) and `)` (id 5). -/
def exDb : SymbolDb :=
  match (do
    let (d1, _) ← SymbolDb.new.newNonterminal "E1"
    let (d2, _) ← d1.newTerminal "("
    let (d3, _) ← d2.newTerminal ")"
    Except.ok d3 : Except String SymbolDb) with
  | .ok d => d
  | .error _ => SymbolDb.init

/-- The grammar of parser.rs test01: `E1 → ( E1 ) | ε`, start symbol `E1`. -/
def exGrammar : Grammar := Grammar.new exDb 3 [⟨3, [4, 3, 5]⟩, ⟨3, [2]⟩]

/-- The canonical collection of `exGrammar` (construction succeeds). -/
def exCC : CanonicalCollection :=
  match ccBuild exGrammar with
  | .ok cc => cc
  | .error _ => ⟨0, [], [], [], []⟩

/-- The parse tables of `exGrammar` (construction succeeds). -/
def exPT : ParseTables :=
  match ptBuild exGrammar with
  | .ok pt => pt
  | .error _ => ⟨[], []⟩

/-- The parser of `exGrammar`. -/
def exParser : Parser := ⟨exGrammar, exPT⟩

/-- The tree `exParser` produces for the token sequence `( ) $` (tokens are
their own symbols: 4 = `(`, 5 = `)`, 1 = `$`). -/
def exTree : ParseTree Nat :=
  match Parser.parse Nat exParser 100 [4, 5, 1] id with
  | .ok (some t) => t
  | _ => .node 0 0 []

/-- An interning table with only the nonterminal `S` (id 3) registered beyond
the reserved symbols; symbol 9 is unregistered in it. -/
def exDbS : SymbolDb :=
  match (SymbolDb.new.newNonterminal "S" : Except String (SymbolDb × Symbol)) with
  | .ok (d, _) => d
  | .error _ => SymbolDb.init

/-! ## Helper lemmas -/

theorem SymbolDb.newE_ok : SymbolDb.newE = .ok SymbolDb.new := rfl

theorem lookupAct_nil (key : Nat × Symbol) : lookupAct [] key = none := rfl

theorem lookupAct_cons (e : (Nat × Symbol) × Action) (t : ActionTbl)
    (key : Nat × Symbol) :
    lookupAct (e :: t) key = if e.1 = key then some e.2 else lookupAct t key := by
  simp only [lookupAct, List.find?]
  by_cases h : e.1 = key
  · simp [h]
  · simp [h]

theorem lookupAct_append (t1 t2 : ActionTbl) (key : Nat × Symbol) :
    lookupAct (t1 ++ t2) key =
      match lookupAct t1 key with
      | some a => some a
      | none => lookupAct t2 key := by
  simp only [lookupAct, List.find?_append]
  cases h : List.find? (fun e => decide (e.1 = key)) t1 <;> simp [Option.or]

theorem lookupAct_insertAct_self (t : ActionTbl) (key : Nat × Symbol)
    (a : Action) (h : (lookupAct t key).isSome) :
    lookupAct (insertAct t key a) key = some a := by
  unfold insertAct
  rw [if_pos h]
  induction t with
  | nil => simp [lookupAct] at h
  | cons e t ih =>
    by_cases he : e.1 = key
    · simp [List.map, he, lookupAct_cons]
    · rw [lookupAct_cons] at h
      rw [if_neg he] at h
      simp only [List.map, he, if_neg he, ite_false]
      rw [lookupAct_cons, if_neg he]
      exact ih h

theorem lookupAct_map_ne (t : ActionTbl) (key k2 : Nat × Symbol) (a : Action)
    (h : k2 ≠ key) :
    lookupAct (t.map (fun e => if e.1 = key then (key, a) else e)) k2 =
      lookupAct t k2 := by
  induction t with
  | nil => rfl
  | cons e t ih =>
    by_cases he : e.1 = key
    · simp only [List.map, if_pos he]
      rw [lookupAct_cons, lookupAct_cons, if_neg (fun hh => h hh.symm),
        if_neg (by rw [he]; exact fun hh => h hh.symm)]
      exact ih
    · simp only [List.map, if_neg he]
      rw [lookupAct_cons, lookupAct_cons]
      by_cases h2 : e.1 = k2
      · simp [h2]
      · rw [if_neg h2, if_neg h2]; exact ih

theorem lookupAct_insertAct_ne (t : ActionTbl) (key k2 : Nat × Symbol)
    (a : Action) (h : k2 ≠ key) :
    lookupAct (insertAct t key a) k2 = lookupAct t k2 := by
  unfold insertAct
  by_cases hs : (lookupAct t key).isSome
  · rw [if_pos hs]; exact lookupAct_map_ne t key k2 a h
  · rw [if_neg hs, lookupAct_append]
    cases hl : lookupAct t k2 with
    | some b => rfl
    | none => rw [lookupAct_cons, if_neg (fun hh => h hh.symm)]; rfl

/-! ## C5: the ACTION-cell conflict policy -/

/-- C5: when two items place different actions in the same ACTION cell,
shift beats reduce in either arrival order and construction continues, while
two different reduce actions are a fatal conflict. Starting from any table
with no entry at the cell: adding Shift then Reduce keeps the Shift; adding
Reduce then Shift overwrites with the Shift; adding two distinct Reduce
actions fails. -/
theorem addAct_conflict_policy (t : ActionTbl) (state : Nat) (sym : Symbol)
    (j : Nat) (p q : Production) (h : lookupAct t (state, sym) = none) :
    (addAct t state sym (.shift j) = .ok (t ++ [((state, sym), .shift j)]) ∧
     addAct (t ++ [((state, sym), .shift j)]) state sym (.reduce p) =
       .ok (t ++ [((state, sym), .shift j)]) ∧
     lookupAct (t ++ [((state, sym), .shift j)]) (state, sym) =
       some (.shift j)) ∧
    (addAct t state sym (.reduce p) = .ok (t ++ [((state, sym), .reduce p)]) ∧
     addAct (t ++ [((state, sym), .reduce p)]) state sym (.shift j) =
       .ok (insertAct (t ++ [((state, sym), .reduce p)]) (state, sym) (.shift j)) ∧
     lookupAct (insertAct (t ++ [((state, sym), .reduce p)]) (state, sym) (.shift j))
       (state, sym) = some (.shift j)) ∧
    (p ≠ q →
      addAct (t ++ [((state, sym), .reduce p)]) state sym (.reduce q) =
        .error "reduce/reduce conflict") := by
  have hs : lookupAct (t ++ [((state, sym), .shift j)]) (state, sym) =
      some (.shift j) := by
    rw [lookupAct_append, h]; simp [lookupAct_cons]
  have hr : lookupAct (t ++ [((state, sym), .reduce p)]) (state, sym) =
      some (.reduce p) := by
    rw [lookupAct_append, h]; simp [lookupAct_cons]
  refine ⟨⟨?_, ?_, hs⟩, ⟨?_, ?_, ?_⟩, ?_⟩
  · simp only [addAct, h]
  · simp only [addAct, hs]; simp
  · simp only [addAct, h]
  · simp only [addAct, hr]; simp
  · exact lookupAct_insertAct_self _ _ _ (by rw [hr]; rfl)
  · intro hpq
    have hqp : ¬ q = p := fun hh => hpq hh.symm
    simp only [addAct, hr]
    simp [hpq, hqp]

/-- Witness for C5 at a concrete empty table and two distinct productions. -/
theorem addAct_conflict_policy_witness :
    (addAct [] 0 0 (.shift 1) = .ok [((0, 0), .shift 1)] ∧
     addAct [((0, 0), .shift 1)] 0 0 (.reduce ⟨0, []⟩) =
       .ok [((0, 0), .shift 1)] ∧
     lookupAct [((0, 0), .shift 1)] (0, 0) = some (.shift 1)) ∧
    (addAct [] 0 0 (.reduce ⟨0, []⟩) = .ok [((0, 0), .reduce ⟨0, []⟩)] ∧
     addAct [((0, 0), .reduce ⟨0, []⟩)] 0 0 (.shift 1) =
       .ok (insertAct [((0, 0), .reduce ⟨0, []⟩)] (0, 0) (.shift 1)) ∧
     lookupAct (insertAct [((0, 0), .reduce ⟨0, []⟩)] (0, 0) (.shift 1)) (0, 0) =
       some (.shift 1)) ∧
    ((⟨0, []⟩ : Production) ≠ ⟨0, [1]⟩ →
      addAct [((0, 0), .reduce ⟨0, []⟩)] 0 0 (.reduce ⟨0, [1]⟩) =
        .error "reduce/reduce conflict") := by
  have h := addAct_conflict_policy [] 0 0 1 ⟨0, []⟩ ⟨0, [1]⟩ rfl
  simpa using h

/-! ## C6: the Reduce step of the driver -/

/-- C6: a `Reduce(p)` step pops `k = |p.rhs with ε filtered out|` states and
`k` subtrees, reattaches the subtrees in their original left-to-right order
(the stack holds them top-first, so the popped prefix is reversed) as the
children of a new node labeled `p.lhs`, pushes that node, and pushes
`GOTO[new top state, p.lhs]`; an epsilon production (`rhs = [ε]`) has
`k = 0`, so nothing is popped from either stack. -/
theorem reduceStep_spec (T : Type) (pt : ParseTables) (εs : Symbol)
    (p : Production) (tok : T) (ss : List Nat) (ps : List (ParseTree T))
    (cur : Nat) (restSS : List Nat) (next : Nat)
    (hps : (p.rhs.filter (fun s => s ≠ εs)).length ≤ ps.length)
    (hss : ss.drop (p.rhs.filter (fun s => s ≠ εs)).length = cur :: restSS)
    (hgoto : pt.transition cur p.lhs = some next) :
    reduceStep T pt εs p tok ss ps =
      .ok (next :: cur :: restSS,
        ParseTree.node p.lhs tok
            ((ps.take (p.rhs.filter (fun s => s ≠ εs)).length).reverse) ::
          ps.drop (p.rhs.filter (fun s => s ≠ εs)).length) ∧
    (p.rhs = [εs] → (p.rhs.filter (fun s => s ≠ εs)).length = 0) := by
  constructor
  · unfold reduceStep
    rw [if_pos hps, hss]
    simp [hgoto]
  · intro hε
    rw [hε]
    simp

/-- Witness for C6 at a concrete table, production and stacks. -/
theorem reduceStep_spec_witness :
    reduceStep Nat ⟨[], [((0, 9), 7)]⟩ 2 ⟨9, [5]⟩ 6 [3, 0] [.node 5 8 []] =
      .ok ([7, 0],
        [ParseTree.node 9 6 [.node 5 8 []]]) ∧
    (([5] : List Symbol) = [2] → (([5] : List Symbol).filter (fun s => s ≠ 2)).length = 0) := by
  have h := reduceStep_spec Nat ⟨[], [((0, 9), 7)]⟩ 2 ⟨9, [5]⟩ 6 [3, 0]
    [.node 5 8 []] 0 [] 7 (by decide) (by decide) rfl
  simpa using h

/-! ## C3: structured parse errors -/

/-- C3: the driver fails with `unexpectedToken state sym` when the ACTION
table has no entry for the current state and symbol; with
`missingGoto cur lhs` when a reduce finds no GOTO entry for the uncovered
state and the production's lhs; and with `unexpectedEndOfInput` when the
token sequence is exhausted — both on an empty input (the source unwraps the
first `iter.next()` before the loop) and when a shift needs the next token.
The parser itself is an unchanging input to `parse` (the source takes
`&self`), so a failed parse leaves it as it was for later parses. -/
theorem parse_error_cases (T : Type) (pr : Parser) (fuel : Nat)
    (classify : T → Symbol) :
    (Parser.parse T pr fuel [] classify = .error .unexpectedEndOfInput) ∧
    (∀ f state ss ps tok sym rest,
      pr.parseTables.action state sym = none →
      parseLoop T pr.parseTables pr.grammar.symbolDb.epsilon classify (f + 1)
          (state :: ss) ps tok sym rest =
        .error (.unexpectedToken state sym)) ∧
    (∀ f state ss ps tok sym n,
      pr.parseTables.action state sym = some (.shift n) →
      parseLoop T pr.parseTables pr.grammar.symbolDb.epsilon classify (f + 1)
          (state :: ss) ps tok sym [] =
        .error .unexpectedEndOfInput) ∧
    (∀ p tok ss ps cur restSS,
      (p.rhs.filter (fun s => s ≠ pr.grammar.symbolDb.epsilon)).length ≤ ps.length →
      ss.drop (p.rhs.filter (fun s => s ≠ pr.grammar.symbolDb.epsilon)).length =
        cur :: restSS →
      pr.parseTables.transition cur p.lhs = none →
      reduceStep T pr.parseTables pr.grammar.symbolDb.epsilon p tok ss ps =
        .error (.missingGoto cur p.lhs)) := by
  refine ⟨rfl, ?_, ?_, ?_⟩
  · intro f state ss ps tok sym rest h
    unfold parseLoop
    rw [h]
  · intro f state ss ps tok sym n h
    unfold parseLoop
    rw [h]
  · intro p tok ss ps cur restSS hps hss hgoto
    unfold reduceStep
    rw [if_pos hps, hss]
    simp [hgoto]

/-- Witness for C3 at a concrete one-shift table. -/
theorem parse_error_cases_witness :
    (Parser.parse Nat ⟨Grammar.new SymbolDb.new 0 [], ⟨[((0, 5), .shift 1)], []⟩⟩
        9 [] id = .error .unexpectedEndOfInput) ∧
    (parseLoop Nat ⟨[((0, 5), .shift 1)], []⟩ 2 id 3 [0] [] 7 7 [] =
      .error (.unexpectedToken 0 7)) ∧
    (parseLoop Nat ⟨[((0, 5), .shift 1)], []⟩ 2 id 3 [0] [] 5 5 [] =
      .error .unexpectedEndOfInput) ∧
    (reduceStep Nat ⟨[((0, 5), .shift 1)], []⟩ 2 ⟨9, [5]⟩ 6 [3, 0] [.node 5 8 []] =
      .error (.missingGoto 0 9)) := by
  have h := parse_error_cases Nat
    ⟨Grammar.new SymbolDb.new 0 [], ⟨[((0, 5), .shift 1)], []⟩⟩ 9 id
  refine ⟨h.1, ?_, ?_, ?_⟩
  · have := h.2.1 2 0 [] [] 7 7 [] (by decide)
    simpa using this
  · have := h.2.2.1 2 0 [] [] 5 5 1 (by decide)
    simpa using this
  · have := h.2.2.2 ⟨9, [5]⟩ 6 [3, 0] [.node 5 8 []] 0 [] (by decide) (by decide)
      (by decide)
    simpa using this

/-! ## C4: grammar-definition errors -/

theorem lookupN_cons {β : Type} (k : Symbol) (v : β) (tl : List (Symbol × β))
    (s : Symbol) :
    List.lookup s ((k, v) :: tl) = if s = k then some v else List.lookup s tl := by
  rw [List.lookup_cons]
  by_cases h : s = k
  · simp [h]
  · have hb : (s == k) = false := beq_eq_false_iff_ne.mpr h
    simp [hb, h]

theorem addToGroup_mono (q : Production) (s : Symbol) (x : Production) :
    ∀ acc : List (Symbol × List Production),
    x ∈ (acc.lookup s).getD [] → x ∈ ((addToGroup acc q).lookup s).getD []
  | [], hx => by simp [List.lookup] at hx
  | (k, v) :: acc, hx => by
    simp only [addToGroup]
    rw [lookupN_cons] at hx
    by_cases hk : k = q.lhs
    · rw [if_pos hk, lookupN_cons]
      by_cases hs : s = k
      · rw [if_pos hs] at hx ⊢
        simp at hx ⊢
        exact Or.inl hx
      · rw [if_neg hs] at hx ⊢
        exact hx
    · rw [if_neg hk, lookupN_cons]
      by_cases hs : s = k
      · rw [if_pos hs] at hx ⊢
        exact hx
      · rw [if_neg hs] at hx ⊢
        exact addToGroup_mono q s x acc hx

theorem addToGroup_self (q : Production) :
    ∀ acc : List (Symbol × List Production),
    q ∈ ((addToGroup acc q).lookup q.lhs).getD []
  | [] => by simp [addToGroup, lookupN_cons]
  | (k, v) :: acc => by
    simp only [addToGroup]
    by_cases hk : k = q.lhs
    · rw [if_pos hk, lookupN_cons, if_pos hk.symm]
      simp
    · rw [if_neg hk, lookupN_cons, if_neg (fun h => hk h.symm)]
      exact addToGroup_self q acc

theorem foldl_addToGroup_mono (s : Symbol) (x : Production) :
    ∀ ps : List Production, ∀ acc : List (Symbol × List Production),
    x ∈ (acc.lookup s).getD [] → x ∈ ((ps.foldl addToGroup acc).lookup s).getD []
  | [], _, hx => hx
  | q :: ps, acc, hx =>
    foldl_addToGroup_mono s x ps (addToGroup acc q) (addToGroup_mono q s x acc hx)

theorem mem_groupByLhs (p : Production) :
    ∀ ps : List Production, ∀ acc : List (Symbol × List Production),
    p ∈ ps → p ∈ ((ps.foldl addToGroup acc).lookup p.lhs).getD []
  | [], _, hp => absurd hp (List.not_mem_nil p)
  | q :: ps, acc, hp => by
    rcases List.mem_cons.mp hp with h | h
    · subst h
      exact foldl_addToGroup_mono p.lhs p ps (addToGroup acc p)
        (addToGroup_self p acc)
    · exact mem_groupByLhs p ps (addToGroup acc q) h

/-- C4 (amended): a `GrammarDefinitionError` arises in exactly one situation —
registering a symbol under a label that is already registered (`new_symbol`,
and hence `new_terminal`/`new_nonterminal`, fails precisely then) — while
`Grammar::new` performs no validation at all: for any production list,
including ones referencing unregistered symbols, it produces a grammar whose
groups contain every given production. -/
theorem grammar_definition_errors (db : SymbolDb) (l : String) (start : Symbol)
    (ps : List Production) :
    ((db.newSymbol l).isOk = false ↔ (db.fromLabel.lookup l).isSome) ∧
    ((db.newTerminal l).isOk = false ↔ (db.fromLabel.lookup l).isSome) ∧
    ((db.newNonterminal l).isOk = false ↔ (db.fromLabel.lookup l).isSome) ∧
    (∀ p ∈ ps, p ∈ (Grammar.new db start ps).productionsOf p.lhs) := by
  refine ⟨?_, ?_, ?_, ?_⟩
  · by_cases h : (db.fromLabel.lookup l).isSome <;>
      simp [SymbolDb.newSymbol, h, Except.isOk, Except.toBool]
  · by_cases h : (db.fromLabel.lookup l).isSome <;>
      simp [SymbolDb.newTerminal, SymbolDb.newSymbol, h, Except.isOk,
        Except.toBool, bind, Except.bind]
  · by_cases h : (db.fromLabel.lookup l).isSome <;>
      simp [SymbolDb.newNonterminal, SymbolDb.newSymbol, h, Except.isOk,
        Except.toBool, bind, Except.bind]
  · intro p hp
    unfold Grammar.new Grammar.productionsOf groupByLhs
    exact mem_groupByLhs p (ps ++ [⟨db.goal, [start, db.eoi]⟩]) []
      (List.mem_append_left _ hp)

/-- Witness for C4's amended theorem: in `exDbS` the label `S` is taken
(registering it again fails) while `new` is free, and a production list
mentioning the unregistered symbol 9 still lands in the built grammar. -/
theorem grammar_definition_errors_witness :
    (((exDbS.newSymbol "S").isOk = false ↔ (exDbS.fromLabel.lookup "S").isSome) ∧
     ((exDbS.newTerminal "S").isOk = false ↔ (exDbS.fromLabel.lookup "S").isSome) ∧
     ((exDbS.newNonterminal "S").isOk = false ↔ (exDbS.fromLabel.lookup "S").isSome) ∧
     (∀ p ∈ [(⟨3, [9]⟩ : Production)],
       p ∈ (Grammar.new exDbS 3 [⟨3, [9]⟩]).productionsOf p.lhs)) ∧
    (exDbS.newSymbol "S").isOk = false ∧ (exDbS.newSymbol "new").isOk = true := by
  refine ⟨grammar_definition_errors exDbS "S" 3 [⟨3, [9]⟩], by decide, by decide⟩

/-- Counterexample to C4 as stated: `Grammar::new` does not fail on a
production referencing an unregistered symbol — it returns a grammar that
contains that very production (symbol 9 is registered nowhere in `exDbS`). -/
theorem grammar_new_unregistered_counterexample :
    ¬ exDbS.isRegistered 9 ∧
    (Grammar.new exDbS 3 [⟨3, [9]⟩]).productionsOf 3 = [⟨3, [9]⟩] := by
  constructor
  · decide
  · decide

/-! ## C8: table construction is deterministic -/

/-- C8: building the canonical collection and the parse tables twice from the
same grammar yields structurally equal results — the same state count and
numbering, the same transition map, and ACTION/GOTO tables that agree on
every key. Construction is a pure function of the grammar. -/
theorem build_deterministic (g : Grammar) :
    (∀ cc1 cc2, ccBuild g = .ok cc1 → ccBuild g = .ok cc2 →
      cc1.nextNumber = cc2.nextNumber ∧ cc1.intToSet = cc2.intToSet ∧
      cc1.transitions = cc2.transitions) ∧
    (∀ t1 t2 key, ptBuild g = .ok t1 → ptBuild g = .ok t2 →
      lookupAct t1.actionTable key = lookupAct t2.actionTable key ∧
      lookupTr t1.gotoTable key = lookupTr t2.gotoTable key) := by
  constructor
  · intro cc1 cc2 h1 h2
    rw [h1] at h2
    cases h2
    exact ⟨rfl, rfl, rfl⟩
  · intro t1 t2 key h1 h2
    rw [h1] at h2
    cases h2
    exact ⟨rfl, rfl⟩

/-- Witness for C8: both constructions succeed on `exGrammar` and the two
results of building twice agree. -/
theorem build_deterministic_witness :
    exCC.nextNumber = exCC.nextNumber ∧ exCC.intToSet = exCC.intToSet ∧
    exCC.transitions = exCC.transitions ∧
    lookupAct exPT.actionTable (0, 4) = lookupAct exPT.actionTable (0, 4) ∧
    lookupTr exPT.gotoTable (0, 3) = lookupTr exPT.gotoTable (0, 3) := by
  have hcc : ccBuild exGrammar = .ok exCC := rfl
  have hpt : ptBuild exGrammar = .ok exPT := rfl
  have h1 := (build_deterministic exGrammar).1 exCC exCC hcc hcc
  have h2 := (build_deterministic exGrammar).2 exPT exPT (0, 4) hpt hpt
  have h3 := (build_deterministic exGrammar).2 exPT exPT (0, 3) hpt hpt
  exact ⟨h1.1, h1.2.1, h1.2.2, h2.1, h3.2⟩

/-! ## C1: leaf tokens of the returned tree (evaluation at the failing input) -/

/-- C1: the full pipeline evaluated at the failing input. For the grammar
`E1 → ( E1 ) | ε` (parser.rs test01) the generator accepts the grammar and
parsing `( ) $` (tokens 4, 5, 1 classified as themselves) terminates with
Accept — but the leaves of the returned tree, read left to right, carry the
tokens `[4, 5, 5]`, not the input tokens without `$`, `[4, 5]`: the ε-reduce
node has zero children, making it a leaf, and it carries whatever token was
current at reduction time (here `)` = 5). -/
theorem parse_leaf_tokens_eval :
    Parser.new exGrammar = .ok exParser ∧
    Parser.parse Nat exParser 100 [4, 5, 1] id = .ok (some exTree) ∧
    leafTokens exTree = [4, 5, 5] ∧ leafTokens exTree ≠ [4, 5] := by
  refine ⟨rfl, rfl, rfl, by decide⟩

/-! ## C2: the initial state of the canonical collection -/

theorem exceptBind_ok {ε α β : Type} (x : Except ε α) (f : α → Except ε β)
    (b : β) (h : (x >>= f) = .ok b) : ∃ a, x = .ok a ∧ f a = .ok b := by
  cases x with
  | error e => simp [Bind.bind, Except.bind] at h
  | ok a => exact ⟨a, rfl, by simpa [Bind.bind, Except.bind] using h⟩

theorem add_head (cc : CanonicalCollection) (s : ItemSet)
    (cc' : CanonicalCollection) (e : Nat × ItemSet)
    (h : cc.intToSet.head? = some e) (hadd : cc.add s = .ok cc') :
    cc'.intToSet.head? = some e := by
  unfold CanonicalCollection.add at hadd
  cases hcs : cc.containsSet s with
  | true => rw [hcs] at hadd; simp at hadd
  | false =>
    rw [hcs] at hadd
    simp only [Bool.false_eq_true, if_false] at hadd
    cases hadd
    rw [List.head?_append, h]
    rfl

theorem addTransition_intToSet (cc : CanonicalCollection) (src : ItemSet)
    (onSym : Symbol) (tgt : ItemSet) (cc' : CanonicalCollection)
    (h : cc.addTransition src onSym tgt = .ok cc') :
    cc'.intToSet = cc.intToSet := by
  unfold CanonicalCollection.addTransition at h
  repeat' split at h
  all_goals first
  | (cases h; rfl)
  | simp_all

theorem processItems_head (g : Grammar) (ff : FirstAndFollow) (ccI : ItemSet)
    (e : Nat × ItemSet) :
    ∀ items : List LR1Item, ∀ cc cc' : CanonicalCollection,
    cc.intToSet.head? = some e → processItems g ff ccI items cc = .ok cc' →
    cc'.intToSet.head? = some e
  | [], cc, cc', h1, h2 => by
    unfold processItems at h2
    cases h2
    exact h1
  | item :: rest, cc, cc', h1, h2 => by
    unfold processItems at h2
    split at h2
    · exact processItems_head g ff ccI e rest cc cc' h1 h2
    · split at h2
      · simp at h2
      · rename_i cc1 hcc1
        split at h2
        · simp at h2
        · rename_i cc2 hcc2
          have he1 : cc1.intToSet.head? = some e := by
            split at hcc1
            · cases hcc1; exact h1
            · exact add_head cc _ cc1 e h1 hcc1
          have he2 : cc2.intToSet.head? = some e := by
            rw [addTransition_intToSet cc1 ccI _ _ cc2 hcc2]
            exact he1
          exact processItems_head g ff ccI e rest cc2 cc' he2 h2

theorem processSets_head (g : Grammar) (ff : FirstAndFollow)
    (e : Nat × ItemSet) :
    ∀ batch : List ItemSet, ∀ cc cc' : CanonicalCollection,
    cc.intToSet.head? = some e → processSets g ff batch cc = .ok cc' →
    cc'.intToSet.head? = some e
  | [], cc, cc', h1, h2 => by
    unfold processSets at h2
    cases h2
    exact h1
  | s :: rest, cc, cc', h1, h2 => by
    unfold processSets at h2
    obtain ⟨cc1, hcc1, h3⟩ := exceptBind_ok _ _ _ h2
    exact processSets_head g ff e rest cc1 cc'
      (processItems_head g ff s e s cc cc1 h1 hcc1) h3

theorem ccLoop_head (g : Grammar) (ff : FirstAndFollow) (e : Nat × ItemSet) :
    ∀ fuel : Nat, ∀ cc cc' : CanonicalCollection,
    cc.intToSet.head? = some e → ccLoop g ff fuel cc = .ok cc' →
    cc'.intToSet.head? = some e
  | 0, cc, cc', _, h2 => by simp [ccLoop] at h2
  | fuel + 1, cc, cc', h1, h2 => by
    unfold ccLoop at h2
    split at h2
    · cases h2; exact h1
    · obtain ⟨cc1, hcc1, h3⟩ := exceptBind_ok _ _ _ h2
      exact ccLoop_head g ff e fuel cc1 cc'
        (processSets_head g ff e cc.unprocessed
          { cc with unprocessed := [] } cc1 (by exact h1) hcc1) h3

/-- C2 (amended): for every grammar whose canonical collection builds, state 0
is the closure of the singleton `{ [GOAL → ·start_symbol, $] }`: the seed
production's rhs is `[start_symbol]` with lookahead `$` — the `$` is in the
lookahead, not in the rhs. -/
theorem cc_initial_state (g : Grammar) (cc : CanonicalCollection)
    (h : ccBuild g = .ok cc) :
    cc.intToSet.head? = some (0, closure g (FirstAndFollow.new g) [ccSeed g]) := by
  unfold ccBuild at h
  split at h
  · simp at h
  · rename_i cc1 hadd
    have h1 : cc1.intToSet.head? = some (0, cc0Set g) := by
      unfold CanonicalCollection.add at hadd
      rw [if_neg (by simp [CanonicalCollection.containsSet, lookupSet])] at hadd
      cases hadd
      rfl
    exact ccLoop_head g (FirstAndFollow.new g) _ _ cc1 cc h1 h

/-- Witness for C2's amended theorem at `exGrammar`. -/
theorem cc_initial_state_witness :
    exCC.intToSet.head? =
      some (0, closure exGrammar (FirstAndFollow.new exGrammar) [ccSeed exGrammar]) :=
  cc_initial_state exGrammar exCC rfl

/-- Counterexample to C2 as stated: for `exGrammar`, the actual CC₀ (the set
numbered 0) is not set-equal to the closure of
`{ [GOAL → start_symbol $ (rhs [start_symbol, $]), dot 0, lookahead $] }`
that the claim asserts: the seed production's rhs in the source is
`[start_symbol]`, and the two closures differ. -/
theorem cc0_spec_counterexample :
    ccBuild exGrammar = .ok exCC ∧
    ¬ setEqI ((exCC.intToSet.head?.getD (0, [])).2) (specCC0 exGrammar) := by
  exact ⟨rfl, by decide⟩

/-! ## C7: FOLLOW-set invariants -/

theorem mem_insertSym (l : List Symbol) (s x : Symbol) :
    x ∈ insertSym l s ↔ x ∈ l ∨ x = s := by
  unfold insertSym
  by_cases h : s ∈ l
  · rw [if_pos h]
    constructor
    · exact Or.inl
    · rintro (hx | rfl)
      · exact hx
      · exact h
  · rw [if_neg h]
    simp

theorem mem_insertAll (l xs : List Symbol) (x : Symbol) :
    x ∈ insertAll l xs ↔ x ∈ l ∨ x ∈ xs := by
  induction xs generalizing l with
  | nil => simp [insertAll]
  | cons y ys ih =>
    unfold insertAll at ih ⊢
    rw [List.foldl_cons, ih, mem_insertSym]
    simp only [List.mem_cons]
    tauto

theorem mem_removeSym (l : List Symbol) (s x : Symbol) :
    x ∈ removeSym l s ↔ x ∈ l ∧ x ≠ s := by
  simp [removeSym]

theorem lookup_updF (m : FMap) (k : Symbol) (f : List Symbol → List Symbol)
    (j : Symbol) :
    (updF m k f).lookup j =
      if j = k then (m.lookup k).map f else m.lookup j := by
  induction m with
  | nil => by_cases h : j = k <;> simp [updF, List.lookup, h]
  | cons e m ih =>
    obtain ⟨a, v⟩ := e
    show List.lookup j ((if a = k then (a, f v) else (a, v)) :: updF m k f) = _
    by_cases hak : a = k
    · subst hak
      by_cases hj : j = a
      · simp [lookupN_cons, hj]
      · simp [lookupN_cons, hj, ih]
    · by_cases hj : j = a
      · have hjk : ¬ j = k := fun h => hak (hj.symm.trans h)
        simp [lookupN_cons, hak, hj, hjk]
      · by_cases hjk : j = k
        · have hka : ¬ k = a := fun h => hak h.symm
          subst hjk
          simp [lookupN_cons, hak, hj, hka, ih]
        · simp [lookupN_cons, hak, hj, hjk, ih]

theorem FSub.rfl (m : FMap) : FSub m m :=
  fun _ v h => ⟨v, h, fun _ hx => hx⟩

theorem FSub.comp {m1 m2 m3 : FMap} (h1 : FSub m1 m2) (h2 : FSub m2 m3) :
    FSub m1 m3 := by
  intro k v hv
  obtain ⟨w, hw, hvw⟩ := h1 k v hv
  obtain ⟨u, hu, hwu⟩ := h2 k w hw
  exact ⟨u, hu, fun x hx => hwu x (hvw x hx)⟩

theorem FSub_updF (m : FMap) (k : Symbol) (f : List Symbol → List Symbol)
    (hf : ∀ v, ∀ x ∈ v, x ∈ f v) : FSub m (updF m k f) := by
  intro j v hv
  rw [lookup_updF]
  by_cases hj : j = k
  · subst hj
    exact ⟨f v, by rw [if_pos rfl, hv]; rfl, hf v⟩
  · exact ⟨v, by rw [if_neg hj]; exact hv, fun _ hx => hx⟩

theorem followStep_FSub (db : SymbolDb) (first : FMap)
    (st : FMap × List Symbol) (b : Symbol) :
    FSub st.1 (followStep db first st b).1 := by
  obtain ⟨m, tail⟩ := st
  have hupd : FSub m (updF m b (fun fb => insertAll fb tail)) :=
    FSub_updF m b _ (fun v x hx => (mem_insertAll v tail x).mpr (Or.inl hx))
  cases ht : db.isTerminal b with
  | true => simp [followStep, ht]; exact FSub.rfl m
  | false =>
    cases hfb : first.lookup b with
    | none => simp [followStep, ht, hfb]; exact hupd
    | some fb =>
      by_cases hε : db.epsilon ∈ fb
      · simp [followStep, ht, hfb, hε]; exact hupd
      · simp [followStep, ht, hfb, hε]; exact hupd

theorem foldl_followStep_FSub (db : SymbolDb) (first : FMap) :
    ∀ bs : List Symbol, ∀ m : FMap, ∀ tail : List Symbol,
    FSub m (bs.foldl (followStep db first) (m, tail)).1
  | [], m, _ => FSub.rfl m
  | b :: bs, m, tail => by
    rw [List.foldl_cons]
    have h1 := followStep_FSub db first (m, tail) b
    have h2 := foldl_followStep_FSub db first bs
      (followStep db first (m, tail) b).1 (followStep db first (m, tail) b).2
    rw [Prod.mk.eta] at h2
    exact FSub.comp h1 h2

theorem followProd_FSub (db : SymbolDb) (first : FMap) (m : FMap)
    (p : Production) : FSub m (followProd db first m p) :=
  foldl_followStep_FSub db first p.rhs.reverse m _

theorem foldl_FSub {α : Type} (step : FMap → α → FMap)
    (h : ∀ m x, FSub m (step m x)) :
    ∀ xs : List α, ∀ m : FMap, FSub m (xs.foldl step m)
  | [], m => FSub.rfl m
  | x :: xs, m => FSub.comp (h m x) (foldl_FSub step h xs (step m x))

theorem followPass_FSub (g : Grammar) (first : FMap) (m : FMap) :
    FSub m (followPass g first m) :=
  foldl_FSub _
    (fun m nt => foldl_FSub _ (fun m p => followProd_FSub g.symbolDb first m p)
      (g.productionsOf nt) m)
    g.symbolDb.nonTerminals m

theorem fixIter_FSub (pass : FMap → FMap) (h : ∀ m, FSub m (pass m)) :
    ∀ fuel : Nat, ∀ m : FMap, FSub m (fixIter pass fuel m)
  | 0, m => FSub.rfl m
  | fuel + 1, m => by
    unfold fixIter
    by_cases he : pass m = m
    · rw [if_pos he]
      exact FSub.rfl m
    · rw [if_neg he]
      exact FSub.comp (h m) (fixIter_FSub pass h fuel (pass m))

theorem lookup_mapIns (m : FMap) (k : Symbol) (v : List Symbol) (j : Symbol) :
    List.lookup j (m.map (fun e => if e.1 = k then (k, v) else e)) =
      if j = k then (m.lookup j).map (fun _ => v) else m.lookup j := by
  induction m with
  | nil => by_cases h : j = k <;> simp [List.lookup, h]
  | cons e m ih =>
    obtain ⟨a, w⟩ := e
    show List.lookup j ((if a = k then (k, v) else (a, w)) :: _) = _
    by_cases hak : a = k
    · subst hak
      by_cases hj : j = a
      · simp [lookupN_cons, hj]
      · simp [lookupN_cons, hj, ih]
    · by_cases hj : j = a
      · have hjk : ¬ j = k := fun h => hak (hj.symm.trans h)
        simp [lookupN_cons, hak, hj, hjk]
      · by_cases hjk : j = k
        · subst hjk
          simp [lookupN_cons, hak, hj, ih]
        · simp [lookupN_cons, hak, hj, hjk, ih]

theorem lookup_insertF (m : FMap) (k : Symbol) (v : List Symbol) (j : Symbol) :
    (insertF m k v).lookup j = if j = k then some v else m.lookup j := by
  unfold insertF
  by_cases hs : (m.lookup k).isSome
  · rw [if_pos hs, lookup_mapIns]
    by_cases hj : j = k
    · subst hj
      rw [if_pos rfl, if_pos rfl]
      obtain ⟨w, hw⟩ := Option.isSome_iff_exists.mp hs
      rw [hw]
      rfl
    · rw [if_neg hj, if_neg hj]
  · rw [if_neg hs]
    by_cases hj : j = k
    · subst hj
      have hn : m.lookup j = none := Option.not_isSome_iff_eq_none.mp hs
      rw [if_pos rfl]
      induction m with
      | nil => simp [lookupN_cons]
      | cons e m ih =>
        obtain ⟨a, w⟩ := e
        rw [lookupN_cons] at hn
        by_cases hja : j = a
        · rw [if_pos hja] at hn
          cases hn
        · rw [if_neg hja] at hn
          rw [List.cons_append, lookupN_cons, if_neg hja]
          exact ih (by rw [hn]; simp) hn
    · rw [if_neg hj]
      induction m with
      | nil => simp [lookupN_cons, hj]
      | cons e m ih =>
        obtain ⟨a, w⟩ := e
        rw [List.cons_append, lookupN_cons, lookupN_cons]
        by_cases hja : j = a
        · rw [if_pos hja, if_pos hja]
        · rw [if_neg hja, if_neg hja]
          rw [lookupN_cons] at hs
          by_cases hka : k = a
          · rw [if_pos hka] at hs
            simp at hs
          · rw [if_neg hka] at hs
            exact ih hs

theorem foldl_insertF_isSome_mono (xs : List Symbol) :
    ∀ m : FMap, ∀ j : Symbol, (m.lookup j).isSome →
    ((xs.foldl (fun m nt => insertF m nt []) m).lookup j).isSome := by
  induction xs with
  | nil => exact fun m j h => h
  | cons x xs ih =>
    intro m j h
    rw [List.foldl_cons]
    refine ih (insertF m x []) j ?_
    rw [lookup_insertF]
    by_cases hj : j = x
    · rw [if_pos hj]; rfl
    · rw [if_neg hj]; exact h

theorem foldl_insertF_isSome (xs : List Symbol) :
    ∀ m : FMap, ∀ k : Symbol, k ∈ xs →
    ((xs.foldl (fun m nt => insertF m nt []) m).lookup k).isSome := by
  induction xs with
  | nil => intro m k h; cases h
  | cons x xs ih =>
    intro m k h
    rw [List.foldl_cons]
    rcases List.mem_cons.mp h with h | h
    · subst h
      refine foldl_insertF_isSome_mono xs (insertF m k []) k ?_
      rw [lookup_insertF, if_pos rfl]
      rfl
    · exact ih (insertF m x []) k h

theorem isTerminal_iff (db : SymbolDb) (s : Symbol) :
    db.isTerminal s = true ↔ s ∈ db.terminals := by
  simp [SymbolDb.isTerminal]

theorem FAvoid_updF_insertAll (εs : Symbol) (m : FMap) (b : Symbol)
    (tail : List Symbol) (hm : FAvoid εs m) (ht : εs ∉ tail) :
    FAvoid εs (updF m b (fun fb => insertAll fb tail)) := by
  intro k v hv
  rw [lookup_updF] at hv
  by_cases hk : k = b
  · rw [if_pos hk] at hv
    cases hb : m.lookup b with
    | none => rw [hb] at hv; cases hv
    | some w =>
      rw [hb] at hv
      cases hv
      intro hmem
      rcases (mem_insertAll w tail εs).mp hmem with h | h
      · exact hm b w hb h
      · exact ht h
  · rw [if_neg hk] at hv
    exact hm k v hv

theorem followStep_inv (db : SymbolDb) (first : FMap) (m : FMap)
    (tail : List Symbol) (b : Symbol) (hb : b ≠ db.epsilon)
    (hm : FAvoid db.epsilon m) (ht : db.epsilon ∉ tail) :
    FAvoid db.epsilon (followStep db first (m, tail) b).1 ∧
    db.epsilon ∉ (followStep db first (m, tail) b).2 := by
  have hupd := FAvoid_updF_insertAll db.epsilon m b tail hm ht
  cases hterm : db.isTerminal b with
  | true =>
    simp only [followStep, hterm, if_true]
    refine ⟨hm, ?_⟩
    intro hmem
    rcases List.mem_singleton.mp hmem with h
    exact hb h.symm
  | false =>
    cases hfb : first.lookup b with
    | none =>
      simp only [followStep, hterm, Bool.false_eq_true, if_false, hfb]
      exact ⟨hupd, ht⟩
    | some fb =>
      by_cases hε : db.epsilon ∈ fb
      · simp only [followStep, hterm, Bool.false_eq_true, if_false, hfb,
          if_pos hε]
        refine ⟨hupd, ?_⟩
        intro hmem
        rcases (mem_insertAll tail (removeSym fb db.epsilon) db.epsilon).mp hmem
          with h | h
        · exact ht h
        · exact ((mem_removeSym fb db.epsilon db.epsilon).mp h).2 rfl
      · simp only [followStep, hterm, Bool.false_eq_true, if_false, hfb,
          if_neg hε]
        exact ⟨hupd, hε⟩

theorem foldl_followStep_inv (db : SymbolDb) (first : FMap) :
    ∀ bs : List Symbol, (∀ b ∈ bs, b ≠ db.epsilon) →
    ∀ m : FMap, ∀ tail : List Symbol,
    FAvoid db.epsilon m → db.epsilon ∉ tail →
    FAvoid db.epsilon (bs.foldl (followStep db first) (m, tail)).1 ∧
    db.epsilon ∉ (bs.foldl (followStep db first) (m, tail)).2
  | [], _, m, tail, hm, ht => ⟨hm, ht⟩
  | b :: bs, hbs, m, tail, hm, ht => by
    rw [List.foldl_cons]
    have h1 := followStep_inv db first m tail b
      (hbs b (List.mem_cons_self b bs)) hm ht
    have h2 := foldl_followStep_inv db first bs
      (fun x hx => hbs x (List.mem_cons_of_mem b hx))
      (followStep db first (m, tail) b).1 (followStep db first (m, tail) b).2
      h1.1 h1.2
    rw [Prod.mk.eta] at h2
    exact h2

theorem followProd_avoid (db : SymbolDb) (first : FMap) (m : FMap)
    (p : Production) (hterm : db.epsilon ∈ db.terminals)
    (hp : p.rhs = [db.epsilon] ∨ db.epsilon ∉ p.rhs)
    (hm : FAvoid db.epsilon m) : FAvoid db.epsilon (followProd db first m p) := by
  have ht0 : db.epsilon ∉ (m.lookup p.lhs).getD [] := by
    cases hl : m.lookup p.lhs with
    | none => simp
    | some w => exact hm p.lhs w hl
  rcases hp with hp | hp
  · unfold followProd
    rw [hp]
    have hb : db.isTerminal db.epsilon = true := (isTerminal_iff db _).mpr hterm
    simp [followStep, hb]
    exact hm
  · unfold followProd
    refine (foldl_followStep_inv db first p.rhs.reverse ?_ m _ hm ht0).1
    intro b hb
    rw [List.mem_reverse] at hb
    intro hbe
    exact hp (hbe ▸ hb)

theorem foldl_followProd_avoid (db : SymbolDb) (first : FMap)
    (hterm : db.epsilon ∈ db.terminals) :
    ∀ ps : List Production,
    (∀ p ∈ ps, p.rhs = [db.epsilon] ∨ db.epsilon ∉ p.rhs) →
    ∀ m : FMap, FAvoid db.epsilon m →
    FAvoid db.epsilon (ps.foldl (followProd db first) m)
  | [], _, m, hm => hm
  | p :: ps, hps, m, hm => by
    rw [List.foldl_cons]
    exact foldl_followProd_avoid db first hterm ps
      (fun q hq => hps q (List.mem_cons_of_mem p hq)) _
      (followProd_avoid db first m p hterm (hps p (List.mem_cons_self p ps)) hm)

theorem followPass_avoid (g : Grammar) (first : FMap)
    (hterm : g.symbolDb.epsilon ∈ g.symbolDb.terminals)
    (hprods : ∀ nt ∈ g.symbolDb.nonTerminals, ∀ p ∈ g.productionsOf nt,
      p.rhs = [g.symbolDb.epsilon] ∨ g.symbolDb.epsilon ∉ p.rhs)
    (m : FMap) (hm : FAvoid g.symbolDb.epsilon m) :
    FAvoid g.symbolDb.epsilon (followPass g first m) := by
  unfold followPass
  have main : ∀ nts : List Symbol,
      (∀ nt ∈ nts, ∀ p ∈ g.productionsOf nt,
        p.rhs = [g.symbolDb.epsilon] ∨ g.symbolDb.epsilon ∉ p.rhs) →
      ∀ m : FMap, FAvoid g.symbolDb.epsilon m →
      FAvoid g.symbolDb.epsilon
        (nts.foldl
          (fun m nt => (g.productionsOf nt).foldl (followProd g.symbolDb first) m)
          m) := by
    intro nts
    induction nts with
    | nil => exact fun _ m hm => hm
    | cons nt nts ih =>
      intro hnts m hm
      rw [List.foldl_cons]
      exact ih (fun x hx => hnts x (List.mem_cons_of_mem nt hx)) _
        (foldl_followProd_avoid g.symbolDb first hterm (g.productionsOf nt)
          (hnts nt (List.mem_cons_self nt nts)) m hm)
  exact main g.symbolDb.nonTerminals hprods m hm

theorem fixIter_avoid (εs : Symbol) (pass : FMap → FMap)
    (h : ∀ m, FAvoid εs m → FAvoid εs (pass m)) :
    ∀ fuel : Nat, ∀ m : FMap, FAvoid εs m → FAvoid εs (fixIter pass fuel m)
  | 0, m, hm => hm
  | fuel + 1, m, hm => by
    unfold fixIter
    by_cases he : pass m = m
    · rw [if_pos he]
      exact hm
    · rw [if_neg he]
      exact fixIter_avoid εs pass h fuel (pass m) (h m hm)

theorem foldl_insertF_nil_values (xs : List Symbol) :
    ∀ m : FMap, (∀ k v, m.lookup k = some v → v = []) →
    ∀ k v, ((xs.foldl (fun m nt => insertF m nt []) m).lookup k = some v → v = []) := by
  induction xs with
  | nil => exact fun m hm => hm
  | cons x xs ih =>
    intro m hm k v
    rw [List.foldl_cons]
    refine ih (insertF m x []) ?_ k v
    intro k2 v2 hv2
    rw [lookup_insertF] at hv2
    by_cases hk2 : k2 = x
    · rw [if_pos hk2] at hv2
      cases hv2
      rfl
    · rw [if_neg hk2] at hv2
      exact hm k2 v2 hv2

theorem followInit_avoid (g : Grammar)
    (hne : g.symbolDb.eoi ≠ g.symbolDb.epsilon) :
    FAvoid g.symbolDb.epsilon (followInit g) := by
  intro k v hv
  unfold followInit at hv
  rw [lookup_updF] at hv
  have hbase := foldl_insertF_nil_values g.symbolDb.nonTerminals []
    (fun k v hv => by simp [List.lookup] at hv)
  by_cases hk : k = g.symbolDb.goal
  · rw [if_pos hk] at hv
    cases hl : List.lookup g.symbolDb.goal
        (g.symbolDb.nonTerminals.foldl (fun m nt => insertF m nt []) []) with
    | none => rw [hl] at hv; cases hv
    | some w =>
      rw [hl] at hv
      cases hv
      have hw : w = [] := hbase _ w hl
      subst hw
      intro hmem
      rcases (mem_insertSym [] g.symbolDb.eoi g.symbolDb.epsilon).mp hmem with h | h
      · cases h
      · exact hne h.symm
  · rw [if_neg hk] at hv
    have := hbase k v hv
    subst this
    simp

/-- C7: for every grammar (with the reserved symbols in their places: GOAL a
nonterminal, ε a terminal, $ ≠ ε) whose productions use ε only as the sole
symbol of an epsilon production's rhs, the computed FOLLOW sets satisfy
`$ ∈ FOLLOW(GOAL)` and `ε ∉ FOLLOW(X)` for every X. -/
theorem follow_invariants (g : Grammar)
    (hgoal : g.symbolDb.goal ∈ g.symbolDb.nonTerminals)
    (hterm : g.symbolDb.epsilon ∈ g.symbolDb.terminals)
    (hne : g.symbolDb.eoi ≠ g.symbolDb.epsilon)
    (hprods : ∀ nt ∈ g.symbolDb.nonTerminals, ∀ p ∈ g.productionsOf nt,
      p.rhs = [g.symbolDb.epsilon] ∨ g.symbolDb.epsilon ∉ p.rhs) :
    (∃ w, (FirstAndFollow.new g).follow.lookup g.symbolDb.goal = some w ∧
      g.symbolDb.eoi ∈ w) ∧
    (∀ k v, (FirstAndFollow.new g).follow.lookup k = some v →
      g.symbolDb.epsilon ∉ v) := by
  constructor
  · have hbase : ((g.symbolDb.nonTerminals.foldl (fun m nt => insertF m nt [])
        []).lookup g.symbolDb.goal).isSome :=
      foldl_insertF_isSome g.symbolDb.nonTerminals [] g.symbolDb.goal hgoal
    obtain ⟨w0, hw0⟩ := Option.isSome_iff_exists.mp hbase
    have hinit : (followInit g).lookup g.symbolDb.goal =
        some (insertSym w0 g.symbolDb.eoi) := by
      unfold followInit
      rw [lookup_updF, if_pos rfl, hw0]
      rfl
    have hmem : g.symbolDb.eoi ∈ insertSym w0 g.symbolDb.eoi :=
      (mem_insertSym w0 g.symbolDb.eoi g.symbolDb.eoi).mpr (Or.inr rfl)
    have hsub : FSub (followInit g) (FirstAndFollow.new g).follow :=
      fixIter_FSub (followPass g (firstMap g))
        (followPass_FSub g (firstMap g)) (ffFuel g) (followInit g)
    obtain ⟨w, hw, hww⟩ := hsub g.symbolDb.goal _ hinit
    exact ⟨w, hw, hww _ hmem⟩
  · intro k v hv
    have havoid : FAvoid g.symbolDb.epsilon (FirstAndFollow.new g).follow :=
      fixIter_avoid g.symbolDb.epsilon (followPass g (firstMap g))
        (fun m hm => followPass_avoid g (firstMap g) hterm hprods m hm)
        (ffFuel g) (followInit g) (followInit_avoid g hne)
    exact havoid k v hv

/-- Witness for C7 at `exGrammar` (which has the epsilon production
`E1 → ε`). -/
theorem follow_invariants_witness :
    (∃ w, (FirstAndFollow.new exGrammar).follow.lookup exGrammar.symbolDb.goal =
      some w ∧ exGrammar.symbolDb.eoi ∈ w) ∧
    (∀ k v, (FirstAndFollow.new exGrammar).follow.lookup k = some v →
      exGrammar.symbolDb.epsilon ∉ v) :=
  follow_invariants exGrammar (by decide) (by decide) (by decide) (by decide)

/-! ## C9: closure is idempotent -/

theorem insertIt_pos (l : ItemSet) (x : LR1Item) (h : x ∈ l) :
    insertIt l x = l := by
  unfold insertIt
  rw [if_pos h]

theorem insertIt_neg (l : ItemSet) (x : LR1Item) (h : x ∉ l) :
    insertIt l x = l ++ [x] := by
  unfold insertIt
  rw [if_neg h]

theorem mem_insertIt (l : ItemSet) (y x : LR1Item) :
    x ∈ insertIt l y ↔ x ∈ l ∨ x = y := by
  by_cases h : y ∈ l
  · rw [insertIt_pos l y h]
    constructor
    · exact Or.inl
    · rintro (hx | rfl)
      · exact hx
      · exact h
  · rw [insertIt_neg l y h]
    simp

theorem insertIt_nodup (l : ItemSet) (y : LR1Item) (h : l.Nodup) :
    (insertIt l y).Nodup := by
  by_cases hy : y ∈ l
  · rw [insertIt_pos l y hy]
    exact h
  · rw [insertIt_neg l y hy]
    simp [List.nodup_append, h, hy]

theorem foldl_insertIt_ext (xs : List LR1Item) :
    ∀ acc : ItemSet, ∃ t, xs.foldl insertIt acc = acc ++ t := by
  induction xs with
  | nil => exact fun acc => ⟨[], by simp⟩
  | cons x xs ih =>
    intro acc
    rw [List.foldl_cons]
    by_cases hx : x ∈ acc
    · rw [insertIt_pos acc x hx]
      exact ih acc
    · rw [insertIt_neg acc x hx]
      obtain ⟨t, ht⟩ := ih (acc ++ [x])
      exact ⟨[x] ++ t, by rw [ht, List.append_assoc]⟩

theorem mem_foldl_insertIt (xs : List LR1Item) :
    ∀ acc : ItemSet, ∀ x : LR1Item,
    x ∈ xs.foldl insertIt acc ↔ x ∈ acc ∨ x ∈ xs := by
  induction xs with
  | nil => simp
  | cons y ys ih =>
    intro acc x
    rw [List.foldl_cons, ih, mem_insertIt]
    simp only [List.mem_cons]
    tauto

theorem nodup_foldl_insertIt (xs : List LR1Item) :
    ∀ acc : ItemSet, acc.Nodup → (xs.foldl insertIt acc).Nodup := by
  induction xs with
  | nil => exact fun _ h => h
  | cons y ys ih =>
    intro acc h
    rw [List.foldl_cons]
    exact ih (insertIt acc y) (insertIt_nodup acc y h)

theorem foldl_insertIt_of_nodup :
    ∀ l : ItemSet, ∀ acc : ItemSet, (∀ x ∈ l, x ∉ acc) → l.Nodup →
    l.foldl insertIt acc = acc ++ l
  | [], acc, _, _ => by simp
  | x :: l, acc, hd, hn => by
    rw [List.foldl_cons]
    have hx : x ∉ acc := hd x (List.mem_cons_self x l)
    rw [insertIt_neg acc x hx]
    rw [foldl_insertIt_of_nodup l (acc ++ [x]) ?_ (List.Nodup.of_cons hn)]
    · rw [List.append_assoc]
      rfl
    · intro y hy hmem
      rcases List.mem_append.mp hmem with h | h
      · exact hd y (List.mem_cons_of_mem x hy) h
      · rw [List.mem_singleton] at h
        subst h
        exact (List.nodup_cons.mp hn).1 hy

theorem lookup_mem {β : Type} (l : List (Symbol × β)) (k : Symbol) (v : β)
    (h : l.lookup k = some v) : (k, v) ∈ l := by
  induction l with
  | nil => cases h
  | cons e l ih =>
    obtain ⟨a, w⟩ := e
    rw [lookupN_cons] at h
    by_cases hk : k = a
    · rw [if_pos hk] at h
      cases h
      subst hk
      exact List.mem_cons_self _ _
    · rw [if_neg hk] at h
      exact List.mem_cons_of_mem _ (ih h)

theorem mem_foldr_prods :
    ∀ l : List (Symbol × List Production), ∀ e ∈ l, ∀ p ∈ e.2,
    p ∈ l.foldr (fun e acc => e.2 ++ acc) []
  | [], e, he, _, _ => absurd he (List.not_mem_nil e)
  | f :: l, e, he, p, hp => by
    rw [List.foldr_cons]
    rcases List.mem_cons.mp he with h | h
    · subst h
      exact List.mem_append_left _ hp
    · exact List.mem_append_right _ (mem_foldr_prods l e h p hp)

theorem mem_foldr_syms :
    ∀ l : List (Symbol × List Symbol), ∀ e ∈ l, ∀ b ∈ e.2,
    b ∈ l.foldr (fun e acc => e.2 ++ acc) []
  | [], e, he, _, _ => absurd he (List.not_mem_nil e)
  | f :: l, e, he, b, hb => by
    rw [List.foldr_cons]
    rcases List.mem_cons.mp he with h | h
    · subst h
      exact List.mem_append_left _ hb
    · exact List.mem_append_right _ (mem_foldr_syms l e h b hb)

theorem productionsOf_sub_allProds (g : Grammar) (s : Symbol) (p : Production)
    (hp : p ∈ g.productionsOf s) : p ∈ allProds g := by
  unfold Grammar.productionsOf at hp
  cases hl : g.productions.lookup s with
  | none => rw [hl] at hp; cases hp
  | some v =>
    rw [hl] at hp
    exact mem_foldr_prods g.productions (s, v) (lookup_mem g.productions s v hl)
      p hp

theorem ccFirstGo_sub (g : Grammar) (ff : FirstAndFollow) :
    ∀ seq : List Symbol, ∀ acc : List Symbol,
    (∀ x ∈ acc, x ∈ allFirstSyms ff) →
    ∀ b ∈ ccFirst.ccFirstGo g.symbolDb.epsilon ff.first seq acc,
    b ∈ allFirstSyms ff
  | [], acc, hacc, b, hb => hacc b hb
  | s :: seq, acc, hacc, b, hb => by
    unfold ccFirst.ccFirstGo at hb
    cases hl : ff.first.lookup s with
    | none =>
      simp only [hl] at hb
      exact ccFirstGo_sub g ff seq acc hacc b hb
    | some tmp =>
      simp only [hl] at hb
      have hacc1 : ∀ x ∈ insertAll acc tmp, x ∈ allFirstSyms ff := by
        intro x hx
        rcases (mem_insertAll acc tmp x).mp hx with h | h
        · exact hacc x h
        · exact mem_foldr_syms ff.first (s, tmp) (lookup_mem _ s tmp hl) x h
      by_cases hε : g.symbolDb.epsilon ∈ tmp
      · rw [if_pos hε] at hb
        exact ccFirstGo_sub g ff seq _ hacc1 b hb
      · rw [if_neg hε] at hb
        exact hacc1 b hb

theorem ccFirst_sub (g : Grammar) (ff : FirstAndFollow) (seq : List Symbol)
    (b : Symbol) (hb : b ∈ ccFirst g ff seq) : b ∈ allFirstSyms ff := by
  unfold ccFirst at hb
  rw [mem_removeSym] at hb
  exact ccFirstGo_sub g ff seq [] (by intro x hx; cases hx) b hb.1

theorem mem_foldr_univ (bs : List Symbol) :
    ∀ l : List Production, ∀ p ∈ l, ∀ b ∈ bs,
    (⟨p, 0, b⟩ : LR1Item) ∈
      l.foldr (fun p acc => (bs.map (fun b => (⟨p, 0, b⟩ : LR1Item))) ++ acc) []
  | [], p, hp, _, _ => absurd hp (List.not_mem_nil p)
  | q :: l, p, hp, b, hb => by
    rw [List.foldr_cons]
    rcases List.mem_cons.mp hp with h | h
    · subst h
      exact List.mem_append_left _ (List.mem_map_of_mem _ hb)
    · exact List.mem_append_right _ (mem_foldr_univ bs l p h b hb)

theorem mem_genUniv (g : Grammar) (ff : FirstAndFollow) (p : Production)
    (b : Symbol) (hp : p ∈ allProds g) (hb : b ∈ allFirstSyms ff) :
    (⟨p, 0, b⟩ : LR1Item) ∈ genUniv g ff :=
  mem_foldr_univ (allFirstSyms ff) (allProds g) p hp b hb

theorem length_foldr_univ (bs : List Symbol) :
    ∀ l : List Production,
    (l.foldr (fun p acc => (bs.map (fun b => (⟨p, 0, b⟩ : LR1Item))) ++ acc)
      []).length = l.length * bs.length
  | [] => by simp
  | q :: l => by
    rw [List.foldr_cons, List.length_append, List.length_map,
      length_foldr_univ bs l, List.length_cons]
    ring

theorem genUniv_length (g : Grammar) (ff : FirstAndFollow) :
    (genUniv g ff).length = (allProds g).length * (allFirstSyms ff).length :=
  length_foldr_univ (allFirstSyms ff) (allProds g)

theorem mem_genInner (fst : List Symbol) (p : Production) :
    ∀ acc : ItemSet, ∀ x : LR1Item, x ∈ genInner fst acc p →
    x ∈ acc ∨ ∃ b ∈ fst, x = ⟨p, 0, b⟩ := by
  induction fst with
  | nil => exact fun _ _ h => Or.inl h
  | cons b bs ih =>
    intro acc x hx
    unfold genInner at hx ih
    rw [List.foldl_cons] at hx
    rcases ih (insertIt acc ⟨p, 0, b⟩) x hx with h | ⟨c, hc, hxc⟩
    · rcases (mem_insertIt acc ⟨p, 0, b⟩ x).mp h with h | h
      · exact Or.inl h
      · exact Or.inr ⟨b, List.mem_cons_self b bs, h⟩
    · exact Or.inr ⟨c, List.mem_cons_of_mem b hc, hxc⟩

theorem mem_genStep (g : Grammar) (ff : FirstAndFollow) (i : LR1Item) :
    ∀ acc : ItemSet, ∀ x : LR1Item, x ∈ genStep g ff acc i →
    x ∈ acc ∨ x ∈ genUniv g ff := by
  intro acc x hx
  unfold genStep at hx
  cases hdot : i.symbolsAfterDot with
  | nil => simp only [hdot] at hx; exact Or.inl hx
  | cons s rest =>
    simp only [hdot] at hx
    by_cases hterm : g.symbolDb.isTerminal s
    · rw [if_pos hterm] at hx
      exact Or.inl hx
    · rw [if_neg hterm] at hx
      have main : ∀ ps : List Production, (∀ p ∈ ps, p ∈ allProds g) →
          ∀ acc : ItemSet,
          x ∈ ps.foldl (genInner (ccFirst g ff (rest ++ [i.lookahead]))) acc →
          x ∈ acc ∨ x ∈ genUniv g ff := by
        intro ps
        induction ps with
        | nil => exact fun _ _ h => Or.inl h
        | cons p ps ihp =>
          intro hps acc2 hx2
          rw [List.foldl_cons] at hx2
          rcases ihp (fun q hq => hps q (List.mem_cons_of_mem p hq)) _ hx2
            with h | h
          · rcases mem_genInner _ p acc2 x h with h | ⟨b, hb, hxb⟩
            · exact Or.inl h
            · subst hxb
              exact Or.inr (mem_genUniv g ff p b
                (hps p (List.mem_cons_self p ps)) (ccFirst_sub g ff _ b hb))
          · exact Or.inr h
      exact main (g.productionsOf s)
        (fun p hp => productionsOf_sub_allProds g s p hp) acc hx

theorem mem_genItems (g : Grammar) (ff : FirstAndFollow) :
    ∀ cur : ItemSet, ∀ x : LR1Item, x ∈ genItems g ff cur →
    x ∈ genUniv g ff := by
  intro cur x
  unfold genItems
  have main : ∀ l : List LR1Item, ∀ acc : ItemSet,
      x ∈ l.foldl (genStep g ff) acc → x ∈ acc ∨ x ∈ genUniv g ff := by
    intro l
    induction l with
    | nil => exact fun _ h => Or.inl h
    | cons i l ihl =>
      intro acc hx
      rw [List.foldl_cons] at hx
      rcases ihl (genStep g ff acc i) hx with h | h
      · exact mem_genStep g ff i acc x h
      · exact Or.inr h
  intro hx
  rcases main cur [] hx with h | h
  · cases h
  · exact h

theorem closStep_ext (g : Grammar) (ff : FirstAndFollow) (cur : ItemSet) :
    ∃ t, closStep g ff cur = cur ++ t :=
  foldl_insertIt_ext (genItems g ff cur) cur

theorem mem_closStep (g : Grammar) (ff : FirstAndFollow) (cur : ItemSet)
    (x : LR1Item) :
    x ∈ closStep g ff cur ↔ x ∈ cur ∨ x ∈ genItems g ff cur :=
  mem_foldl_insertIt (genItems g ff cur) cur x

theorem closStep_nodup (g : Grammar) (ff : FirstAndFollow) (cur : ItemSet)
    (h : cur.Nodup) : (closStep g ff cur).Nodup :=
  nodup_foldl_insertIt (genItems g ff cur) cur h

theorem closStep_eq_of_length (g : Grammar) (ff : FirstAndFollow)
    (cur : ItemSet) (hlen : (closStep g ff cur).length = cur.length) :
    closStep g ff cur = cur := by
  obtain ⟨t, ht⟩ := closStep_ext g ff cur
  rw [ht, List.length_append] at hlen
  have : t.length = 0 := by omega
  rw [List.length_eq_zero] at this
  rw [ht, this, List.append_nil]

theorem nodup_length_le (l B : ItemSet) (hn : l.Nodup)
    (hsub : ∀ x ∈ l, x ∈ B) : l.length ≤ B.dedup.length := by
  calc l.length = l.toFinset.card := (List.toFinset_card_of_nodup hn).symm
    _ ≤ B.toFinset.card := by
        refine Finset.card_le_card ?_
        intro x hx
        rw [List.mem_toFinset] at hx ⊢
        exact hsub x hx
    _ = B.dedup.length := List.card_toFinset B

theorem closLoop_stable (g : Grammar) (ff : FirstAndFollow) (cur : ItemSet)
    (h : closStep g ff cur = cur) :
    ∀ f : Nat, closLoop g ff f cur = cur
  | 0 => rfl
  | f + 1 => by
    unfold closLoop
    rw [h]
    simp

theorem closLoop_nodup (g : Grammar) (ff : FirstAndFollow) :
    ∀ f : Nat, ∀ cur : ItemSet, cur.Nodup → (closLoop g ff f cur).Nodup
  | 0, cur, h => h
  | f + 1, cur, h => by
    unfold closLoop
    by_cases hlen : (closStep g ff cur).length = cur.length
    · rw [if_pos hlen]
      exact closStep_nodup g ff cur h
    · rw [if_neg hlen]
      exact closLoop_nodup g ff f (closStep g ff cur) (closStep_nodup g ff cur h)

theorem closLoop_fix (g : Grammar) (ff : FirstAndFollow) (B : ItemSet)
    (hBU : ∀ x ∈ genUniv g ff, x ∈ B) :
    ∀ f : Nat, ∀ cur : ItemSet, cur.Nodup → (∀ x ∈ cur, x ∈ B) →
    B.dedup.length < f + cur.length →
    closStep g ff (closLoop g ff f cur) = closLoop g ff f cur
  | 0, cur, hn, hsub, hbound => by
    exact absurd (nodup_length_le cur B hn hsub) (by omega)
  | f + 1, cur, hn, hsub, hbound => by
    unfold closLoop
    by_cases hlen : (closStep g ff cur).length = cur.length
    · rw [if_pos hlen]
      have heq := closStep_eq_of_length g ff cur hlen
      rw [heq]
      exact heq
    · rw [if_neg hlen]
      obtain ⟨t, ht⟩ := closStep_ext g ff cur
      have hlen2 : cur.length + 1 ≤ (closStep g ff cur).length := by
        rw [ht, List.length_append]
        rcases Nat.eq_zero_or_pos t.length with h0 | h0
        · exfalso
          apply hlen
          rw [ht, List.length_append, h0]
          omega
        · omega
      refine closLoop_fix g ff B hBU f (closStep g ff cur)
        (closStep_nodup g ff cur hn) ?_ (by omega)
      intro x hx
      rcases (mem_closStep g ff cur x).mp hx with h | h
      · exact hsub x h
      · exact hBU x (mem_genItems g ff cur x h)

theorem closure_nodup (g : Grammar) (ff : FirstAndFollow) (items : ItemSet) :
    (closure g ff items).Nodup :=
  closLoop_nodup g ff (closureFuel g ff) (items.foldl insertIt [])
    (nodup_foldl_insertIt items [] List.nodup_nil)

theorem closure_stable (g : Grammar) (ff : FirstAndFollow) (items : ItemSet) :
    closStep g ff (closure g ff items) = closure g ff items := by
  unfold closure
  refine closLoop_fix g ff ((items.foldl insertIt []) ++ genUniv g ff)
    (fun x hx => List.mem_append_right _ hx) (closureFuel g ff)
    (items.foldl insertIt []) (nodup_foldl_insertIt items [] List.nodup_nil)
    (fun x hx => List.mem_append_left _ hx) ?_
  have h1 : (((items.foldl insertIt []) ++ genUniv g ff).dedup).length ≤
      (items.foldl insertIt []).length + (genUniv g ff).length := by
    calc (((items.foldl insertIt []) ++ genUniv g ff).dedup).length ≤
        ((items.foldl insertIt []) ++ genUniv g ff).length :=
          List.Sublist.length_le ((items.foldl insertIt []) ++ genUniv g ff).dedup_sublist
      _ = (items.foldl insertIt []).length + (genUniv g ff).length :=
          List.length_append _ _
  have h2 : closureFuel g ff = (genUniv g ff).length + 1 := by
    rw [closureFuel, genUniv_length]
  omega

/-- C9: closure is idempotent — for every grammar, every FIRST/FOLLOW table
and every LR(1) item set `I`, `closure (closure I) = closure I` (the source
computes the inner FIRST/FOLLOW table with `FirstAndFollow::new`; the theorem
holds for any such table). -/
theorem closure_idempotent (g : Grammar) (ff : FirstAndFollow) (items : ItemSet) :
    closure g ff (closure g ff items) = closure g ff items := by
  have hstart : (closure g ff items).foldl insertIt [] = closure g ff items := by
    rw [foldl_insertIt_of_nodup (closure g ff items) []
      (fun x _ hmem => List.not_mem_nil x hmem) (closure_nodup g ff items)]
    exact List.nil_append _
  show closLoop g ff (closureFuel g ff) ((closure g ff items).foldl insertIt []) =
    closure g ff items
  rw [hstart]
  exact closLoop_stable g ff (closure g ff items)
    (closure_stable g ff items) (closureFuel g ff)

/-! ## C10: ε-goto transitions and the absence of ε actions -/

theorem setEqI_refl (s : ItemSet) : setEqI s s :=
  ⟨fun _ hx => hx, fun _ hx => hx⟩

theorem setEqI_mem {a b : ItemSet} (h : setEqI a b) {x : LR1Item}
    (hx : x ∈ b) : x ∈ a :=
  h.2 x hx

theorem lookupTr_cons (e : (Nat × Symbol) × Nat)
    (t : List ((Nat × Symbol) × Nat)) (key : Nat × Symbol) :
    lookupTr (e :: t) key = if e.1 = key then some e.2 else lookupTr t key := by
  simp only [lookupTr, List.find?]
  by_cases h : e.1 = key
  · simp [h]
  · simp [h]

theorem lookupTr_append (t1 t2 : List ((Nat × Symbol) × Nat))
    (key : Nat × Symbol) :
    lookupTr (t1 ++ t2) key =
      match lookupTr t1 key with
      | some v => some v
      | none => lookupTr t2 key := by
  simp only [lookupTr, List.find?_append]
  cases h : List.find? (fun e => decide (e.1 = key)) t1 <;> simp [Option.or]

theorem lookupTr_append_of_some (t1 t2 : List ((Nat × Symbol) × Nat))
    (key : Nat × Symbol) (v : Nat) (h : lookupTr t1 key = some v) :
    lookupTr (t1 ++ t2) key = some v := by
  rw [lookupTr_append, h]

theorem lookupTr_append_single (t : List ((Nat × Symbol) × Nat))
    (key : Nat × Symbol) (v : Nat) (h : lookupTr t key = none) :
    lookupTr (t ++ [(key, v)]) key = some v := by
  rw [lookupTr_append, h, lookupTr_cons, if_pos rfl]

theorem lookupSet_found (l : List (ItemSet × Nat)) (s : ItemSet) (n : Nat)
    (h : lookupSet l s = some n) : ∃ e ∈ l, setEqI e.1 s ∧ e.2 = n := by
  unfold lookupSet at h
  cases hf : List.find? (fun e => decide (setEqI e.1 s)) l with
  | none => rw [hf] at h; cases h
  | some e =>
    rw [hf] at h
    cases h
    have hmem := List.mem_of_find?_eq_some hf
    have hp := List.find?_some hf
    rw [decide_eq_true_iff] at hp
    exact ⟨e, hmem, hp, rfl⟩

theorem lookupSet_append_of_some (l1 l2 : List (ItemSet × Nat)) (s : ItemSet)
    (n : Nat) (h : lookupSet l1 s = some n) : lookupSet (l1 ++ l2) s = some n := by
  unfold lookupSet at h ⊢
  rw [List.find?_append]
  cases hf : List.find? (fun e => decide (setEqI e.1 s)) l1 with
  | none => rw [hf] at h; cases h
  | some e => rw [hf] at h; simp [Option.or, h]

theorem lookupSet_append_self (l : List (ItemSet × Nat)) (s : ItemSet)
    (n : Nat) (h : lookupSet l s = none) :
    lookupSet (l ++ [(s, n)]) s = some n := by
  unfold lookupSet at h ⊢
  rw [List.find?_append]
  cases hf : List.find? (fun e => decide (setEqI e.1 s)) l with
  | some e => rw [hf] at h; cases h
  | none =>
    have : List.find? (fun e => decide (setEqI e.1 s)) [(s, n)] = some (s, n) := by
      simp [List.find?, setEqI_refl]
    simp [Option.or, this]

theorem add_ok (cc : CanonicalCollection) (s : ItemSet)
    (cc' : CanonicalCollection) (h : cc.add s = .ok cc') :
    cc.containsSet s = false ∧
    cc' = ⟨cc.nextNumber + 1, cc.intToSet ++ [(cc.nextNumber, s)],
      cc.setToInt ++ [(s, cc.nextNumber)], cc.transitions,
      cc.unprocessed ++ [s]⟩ := by
  unfold CanonicalCollection.add at h
  cases hcs : cc.containsSet s with
  | true => rw [hcs] at h; simp at h
  | false =>
    rw [hcs] at h
    simp only [Bool.false_eq_true, if_false] at h
    cases h
    exact ⟨rfl, rfl⟩

theorem addTransition_ok (cc : CanonicalCollection) (src : ItemSet)
    (onSym : Symbol) (tgt : ItemSet) (cc' : CanonicalCollection)
    (h : cc.addTransition src onSym tgt = .ok cc') :
    ∃ fromN toN, lookupSet cc.setToInt src = some fromN ∧
      lookupSet cc.setToInt tgt = some toN ∧
      cc'.intToSet = cc.intToSet ∧ cc'.setToInt = cc.setToInt ∧
      cc'.unprocessed = cc.unprocessed ∧
      lookupTr cc'.transitions (fromN, onSym) = some toN ∧
      (∀ key j, lookupTr cc.transitions key = some j →
        lookupTr cc'.transitions key = some j) := by
  unfold CanonicalCollection.addTransition at h
  cases h1 : lookupSet cc.setToInt src with
  | none => simp only [h1] at h; cases h
  | some fromN =>
    cases h2 : lookupSet cc.setToInt tgt with
    | none => simp only [h1, h2] at h; cases h
    | some toN =>
      simp only [h1, h2] at h
      cases h3 : lookupTr cc.transitions (fromN, onSym) with
      | some existing =>
        simp only [h3] at h
        by_cases he : existing = toN
        · rw [if_pos he] at h
          cases h
          rw [he] at h3
          exact ⟨fromN, toN, rfl, rfl, rfl, rfl, rfl, h3, fun _ _ hj => hj⟩
        · rw [if_neg he] at h
          cases h
      | none =>
        simp only [h3] at h
        cases h
        refine ⟨fromN, toN, rfl, rfl, rfl, rfl, rfl,
          lookupTr_append_single _ _ _ h3, ?_⟩
        intro key j hj
        exact lookupTr_append_of_some _ _ key j hj

theorem ExtendsCC.refl (cc : CanonicalCollection) : ExtendsCC cc cc :=
  ⟨fun _ he => he, fun _ _ hj => hj⟩

theorem ExtendsCC.trans {cc1 cc2 cc3 : CanonicalCollection}
    (h1 : ExtendsCC cc1 cc2) (h2 : ExtendsCC cc2 cc3) : ExtendsCC cc1 cc3 :=
  ⟨fun e he => h2.1 e (h1.1 e he), fun k j hj => h2.2 k j (h1.2 k j hj)⟩

theorem TargetOk_mono {cc cc' : CanonicalCollection} (h : ExtendsCC cc cc')
    {n : Nat} {x : Symbol} {adv : LR1Item} (ht : TargetOk cc n x adv) :
    TargetOk cc' n x adv := by
  obtain ⟨j, Sj, h1, h2, h3⟩ := ht
  exact ⟨j, Sj, h.2 _ j h1, h.1 _ h2, h3⟩

theorem DoneSt_mono {cc cc' : CanonicalCollection} (h : ExtendsCC cc cc')
    {n : Nat} {S : ItemSet} (hd : DoneSt cc n S) : DoneSt cc' n S :=
  fun item hi x tl hdot => TargetOk_mono h (hd item hi x tl hdot)

theorem closLoop_sup (g : Grammar) (ff : FirstAndFollow) (y : LR1Item) :
    ∀ f : Nat, ∀ cur : ItemSet, y ∈ cur → y ∈ closLoop g ff f cur
  | 0, _, hy => hy
  | f + 1, cur, hy => by
    unfold closLoop
    by_cases hlen : (closStep g ff cur).length = cur.length
    · rw [if_pos hlen]
      exact (mem_closStep g ff cur y).mpr (Or.inl hy)
    · rw [if_neg hlen]
      exact closLoop_sup g ff y f (closStep g ff cur)
        ((mem_closStep g ff cur y).mpr (Or.inl hy))

theorem closure_sup (g : Grammar) (ff : FirstAndFollow) (items : ItemSet)
    (y : LR1Item) (hy : y ∈ items) : y ∈ closure g ff items :=
  closLoop_sup g ff y (closureFuel g ff) (items.foldl insertIt [])
    ((mem_foldl_insertIt items [] y).mpr (Or.inr hy))

theorem mem_foldShift_mono (g : Grammar) (x : Symbol) :
    ∀ l : List LR1Item, ∀ acc : ItemSet, ∀ y : LR1Item, y ∈ acc →
    y ∈ l.foldl
      (fun acc i =>
        match i.symbolsAfterDot with
        | [] => acc
        | s :: _ =>
          if s = x then insertIt acc ⟨i.production, i.dotPosition + 1, i.lookahead⟩
          else acc)
      acc
  | [], _, _, hy => hy
  | i :: l, acc, y, hy => by
    rw [List.foldl_cons]
    refine mem_foldShift_mono g x l _ y ?_
    cases hdot : i.symbolsAfterDot with
    | nil => simp only [hdot]; exact hy
    | cons s rest =>
      simp only [hdot]
      by_cases hs : s = x
      · rw [if_pos hs]
        exact (mem_insertIt _ _ y).mpr (Or.inl hy)
      · rw [if_neg hs]
        exact hy

theorem mem_foldShift (g : Grammar) (x : Symbol) (item : LR1Item)
    (tl : List Symbol) (hdot : item.symbolsAfterDot = x :: tl) :
    ∀ l : List LR1Item, item ∈ l → ∀ acc : ItemSet,
    (⟨item.production, item.dotPosition + 1, item.lookahead⟩ : LR1Item) ∈
      l.foldl
        (fun acc i =>
          match i.symbolsAfterDot with
          | [] => acc
          | s :: _ =>
            if s = x then insertIt acc ⟨i.production, i.dotPosition + 1, i.lookahead⟩
            else acc)
        acc
  | i :: l, hi, acc => by
    rw [List.foldl_cons]
    rcases List.mem_cons.mp hi with h | h
    · subst h
      refine mem_foldShift_mono g x l _ _ ?_
      simp only [hdot, if_pos rfl]
      exact (mem_insertIt _ _ _).mpr (Or.inr rfl)
    · exact mem_foldShift g x item tl hdot l h _

theorem mem_goTo_advanced (g : Grammar) (ff : FirstAndFollow) (items : ItemSet)
    (x : Symbol) (item : LR1Item) (tl : List Symbol) (hi : item ∈ items)
    (hdot : item.symbolsAfterDot = x :: tl) :
    (⟨item.production, item.dotPosition + 1, item.lookahead⟩ : LR1Item) ∈
      goTo g ff items x := by
  unfold goTo
  exact closure_sup g ff _ _ (mem_foldShift g x item tl hdot items hi [])

theorem processItems_spec (g : Grammar) (ff : FirstAndFollow) (ccI : ItemSet) :
    ∀ items : List LR1Item, ∀ cc cc' : CanonicalCollection,
    (∀ i ∈ items, i ∈ ccI) →
    NumbersOk cc → SetsOk cc →
    processItems g ff ccI items cc = .ok cc' →
    NumbersOk cc' ∧ SetsOk cc' ∧ ExtendsCC cc cc' ∧
    (∀ S ∈ cc.unprocessed, S ∈ cc'.unprocessed) ∧
    (∀ e ∈ cc'.intToSet, e ∈ cc.intToSet ∨ e.2 ∈ cc'.unprocessed) ∧
    (∀ t n, lookupSet cc.setToInt t = some n →
      lookupSet cc'.setToInt t = some n) ∧
    (∀ n, lookupSet cc.setToInt ccI = some n →
      ∀ item ∈ items, ∀ x tl, item.symbolsAfterDot = x :: tl →
      TargetOk cc' n x ⟨item.production, item.dotPosition + 1, item.lookahead⟩)
  | [], cc, cc', _, h1, h2, h => by
    unfold processItems at h
    cases h
    exact ⟨h1, h2, ExtendsCC.refl cc, fun _ hS => hS, fun e he => Or.inl he,
      fun t n hn => hn,
      fun n _ item hitem => absurd hitem (List.not_mem_nil item)⟩
  | item :: rest, cc, cc', hsub, h1, h2, h => by
    unfold processItems at h
    split at h
    · rename_i heq
      obtain ⟨k1, k2, k3, k4, k5, k7, k6⟩ := processItems_spec g ff ccI rest cc
        cc' (fun i hi => hsub i (List.mem_cons_of_mem item hi)) h1 h2 h
      refine ⟨k1, k2, k3, k4, k5, k7, ?_⟩
      intro n hn it hit x tl hdot
      rcases List.mem_cons.mp hit with hh | hh
      · subst hh
        rw [heq] at hdot
        cases hdot
      · exact k6 n hn it hh x tl hdot
    · rename_i x0 rest0 heq
      split at h
      · rename_i e he
        cases h
      · rename_i cc1 hcc1
        split at h
        · rename_i e he
          cases h
        · rename_i cc2 hcc2
          -- step A: cc → cc1 (ensure the goto set is present)
          have stepA : NumbersOk cc1 ∧ SetsOk cc1 ∧ ExtendsCC cc cc1 ∧
              (∀ S ∈ cc.unprocessed, S ∈ cc1.unprocessed) ∧
              (∀ e ∈ cc1.intToSet, e ∈ cc.intToSet ∨ e.2 ∈ cc1.unprocessed) ∧
              (∀ t m, lookupSet cc.setToInt t = some m →
                lookupSet cc1.setToInt t = some m) ∧
              (∃ m, lookupSet cc1.setToInt (goTo g ff ccI x0) = some m) := by
            split at hcc1
            · rename_i hcontains
              cases hcc1
              refine ⟨h1, h2, ExtendsCC.refl cc, fun _ hS => hS,
                fun e he => Or.inl he, fun t m hm => hm, ?_⟩
              unfold CanonicalCollection.containsSet at hcontains
              exact Option.isSome_iff_exists.mp hcontains
            · rename_i hcontains
              obtain ⟨hcf, hrec⟩ := add_ok cc _ cc1 hcc1
              have hnone : lookupSet cc.setToInt (goTo g ff ccI x0) = none := by
                unfold CanonicalCollection.containsSet at hcf
                exact Option.not_isSome_iff_eq_none.mp (by rw [hcf]; simp)
              subst hrec
              refine ⟨?_, ?_, ⟨fun e he => List.mem_append_left _ he,
                  fun k j hj => hj⟩,
                fun S hS => List.mem_append_left _ hS, ?_, ?_, ?_⟩
              · intro e he
                rcases List.mem_append.mp he with hh | hh
                · exact lookupSet_append_of_some _ _ _ _ (h1 e hh)
                · rw [List.mem_singleton] at hh
                  subst hh
                  exact lookupSet_append_self _ _ _ hnone
              · intro e he
                rcases List.mem_append.mp he with hh | hh
                · obtain ⟨S, hS1, hS2⟩ := h2 e hh
                  exact ⟨S, List.mem_append_left _ hS1, hS2⟩
                · rw [List.mem_singleton] at hh
                  subst hh
                  exact ⟨goTo g ff ccI x0,
                    List.mem_append_right _ (List.mem_singleton_self _),
                    setEqI_refl _⟩
              · intro e he
                rcases List.mem_append.mp he with hh | hh
                · exact Or.inl hh
                · rw [List.mem_singleton] at hh
                  subst hh
                  exact Or.inr (List.mem_append_right _ (List.mem_singleton_self _))
              · intro t m hm
                exact lookupSet_append_of_some _ _ _ _ hm
              · exact ⟨cc.nextNumber, lookupSet_append_self _ _ _ hnone⟩
          obtain ⟨a1, a2, a3, a4, a5, a6, m, hm⟩ := stepA
          -- step B: cc1 → cc2 (record the transition)
          obtain ⟨fromN, toN, hb1, hb2, hb3, hb4, hb5, hb6, hb7⟩ :=
            addTransition_ok cc1 ccI x0 _ cc2 hcc2
          have b1 : NumbersOk cc2 := by
            intro e he
            rw [hb3] at he
            rw [hb4]
            exact a1 e he
          have b2 : SetsOk cc2 := by
            intro e he
            rw [hb4] at he
            obtain ⟨S, hS1, hS2⟩ := a2 e he
            rw [← hb3] at hS1
            exact ⟨S, hS1, hS2⟩
          have bext : ExtendsCC cc1 cc2 := by
            refine ⟨?_, hb7⟩
            intro e he
            rw [hb3]
            exact he
          -- recurse on the remaining items
          obtain ⟨k1, k2, k3, k4, k5, k7, k6⟩ := processItems_spec g ff ccI rest
            cc2 cc' (fun i hi => hsub i (List.mem_cons_of_mem item hi)) b1 b2 h
          refine ⟨k1, k2, ExtendsCC.trans a3 (ExtendsCC.trans bext k3), ?_, ?_,
            ?_, ?_⟩
          · intro S hS
            refine k4 S ?_
            rw [hb5]
            exact a4 S hS
          · intro e he
            rcases k5 e he with hh | hh
            · rw [hb3] at hh
              rcases a5 e hh with hh2 | hh2
              · exact Or.inl hh2
              · right
                refine k4 _ ?_
                rw [hb5]
                exact hh2
            · exact Or.inr hh
          · intro t n hn
            refine k7 t n ?_
            rw [hb4]
            exact a6 t n hn
          · intro n hn it hit x tl hdot
            have hn1 : lookupSet cc1.setToInt ccI = some n := a6 ccI n hn
            have hfromN : fromN = n := by
              rw [hn1] at hb1
              exact (Option.some.inj hb1).symm
            have hn2 : lookupSet cc2.setToInt ccI = some n := by
              rw [hb4]
              exact hn1
            rcases List.mem_cons.mp hit with hh | hh
            · subst hh
              rw [heq] at hdot
              cases hdot
              -- the transition recorded in step B serves this item
              obtain ⟨e0, he0, heq0, hval0⟩ := lookupSet_found _ _ _ hb2
              obtain ⟨S1, hS1a, hS1b⟩ := a2 e0 he0
              have hadv : (⟨it.production, it.dotPosition + 1, it.lookahead⟩ :
                  LR1Item) ∈ goTo g ff ccI x0 :=
                mem_goTo_advanced g ff ccI x0 it rest0
                  (hsub it (List.mem_cons_self it rest)) heq
              have hadv1 : (⟨it.production, it.dotPosition + 1, it.lookahead⟩ :
                  LR1Item) ∈ S1 :=
                setEqI_mem hS1b (setEqI_mem heq0 hadv)
              refine TargetOk_mono k3 ?_
              refine ⟨toN, S1, ?_, ?_, hadv1⟩
              · rw [← hfromN]
                exact hb6
              · rw [hb3]
                rw [hval0] at hS1a
                exact hS1a
            · exact k6 n hn2 it hh x tl hdot

theorem processSets_spec (g : Grammar) (ff : FirstAndFollow) :
    ∀ batch : List ItemSet, ∀ cc cc' : CanonicalCollection,
    NumbersOk cc → SetsOk cc →
    processSets g ff batch cc = .ok cc' →
    NumbersOk cc' ∧ SetsOk cc' ∧ ExtendsCC cc cc' ∧
    (∀ S ∈ cc.unprocessed, S ∈ cc'.unprocessed) ∧
    (∀ e ∈ cc'.intToSet, e ∈ cc.intToSet ∨ e.2 ∈ cc'.unprocessed) ∧
    (∀ S ∈ batch, ∀ n, lookupSet cc.setToInt S = some n → DoneSt cc' n S)
  | [], cc, cc', h1, h2, h => by
    unfold processSets at h
    cases h
    exact ⟨h1, h2, ExtendsCC.refl cc, fun _ hS => hS, fun e he => Or.inl he,
      fun S hS => absurd hS (List.not_mem_nil S)⟩
  | s :: rest, cc, cc', h1, h2, h => by
    unfold processSets at h
    obtain ⟨ccm, hccm, hrest⟩ := exceptBind_ok _ _ _ h
    obtain ⟨a1, a2, a3, a4, a5, a7, a6⟩ := processItems_spec g ff s s cc ccm
      (fun i hi => hi) h1 h2 hccm
    obtain ⟨b1, b2, b3, b4, b5, b6⟩ := processSets_spec g ff rest ccm cc' a1 a2
      hrest
    refine ⟨b1, b2, ExtendsCC.trans a3 b3, fun S hS => b4 S (a4 S hS), ?_, ?_⟩
    · intro e he
      rcases b5 e he with hh | hh
      · rcases a5 e hh with hh2 | hh2
        · exact Or.inl hh2
        · exact Or.inr (b4 _ hh2)
      · exact Or.inr hh
    · intro S hS n hn
      rcases List.mem_cons.mp hS with hh | hh
      · subst hh
        have hdone : DoneSt ccm n S := by
          intro it hit x tl hdot
          exact a6 n hn it hit x tl hdot
        exact DoneSt_mono b3 hdone
      · exact b6 S hh n (a7 S n hn)

theorem ccLoop_spec (g : Grammar) (ff : FirstAndFollow) :
    ∀ fuel : Nat, ∀ cc cc' : CanonicalCollection,
    NumbersOk cc → SetsOk cc → QueueInv cc →
    ccLoop g ff fuel cc = .ok cc' →
    ∀ e ∈ cc'.intToSet, DoneSt cc' e.1 e.2
  | 0, cc, cc', _, _, _, h => by simp [ccLoop] at h
  | fuel + 1, cc, cc', h1, h2, h3, h => by
    unfold ccLoop at h
    split at h
    · rename_i hemp
      cases h
      intro e he
      rcases h3 e he with hh | hh
      · rw [hemp] at hh
        cases hh
      · exact hh
    · obtain ⟨cc1, hcc1, hloop⟩ := exceptBind_ok _ _ _ h
      obtain ⟨b1, b2, b3, b4, b5, b6⟩ := processSets_spec g ff cc.unprocessed
        { cc with unprocessed := [] } cc1 (by exact h1) (by exact h2) hcc1
      have hq1 : QueueInv cc1 := by
        intro e he
        rcases b5 e he with hh | hh
        · rcases h3 e (by exact hh) with hh2 | hh2
          · right
            refine b6 e.2 hh2 e.1 ?_
            exact h1 e (by exact hh)
          · right
            refine DoneSt_mono ?_ hh2
            exact ExtendsCC.trans ⟨fun x hx => by exact hx,
              fun k j hj => by exact hj⟩ b3
        · exact Or.inl hh
      exact ccLoop_spec g ff fuel cc1 cc' b1 b2 hq1 hloop

theorem ccBuild_done (g : Grammar) (cc : CanonicalCollection)
    (h : ccBuild g = .ok cc) :
    ∀ e ∈ cc.intToSet, DoneSt cc e.1 e.2 := by
  unfold ccBuild at h
  split at h
  · cases h
  · rename_i cc1 hadd
    obtain ⟨hcf, hrec⟩ := add_ok _ _ cc1 hadd
    have hlook : lookupSet [(cc0Set g, 0)] (cc0Set g) = some 0 := by
      simp [lookupSet, List.find?, decide_eq_true (setEqI_refl (cc0Set g))]
    have h1 : NumbersOk cc1 := by
      subst hrec
      intro e he
      simp only [List.nil_append] at he
      rw [List.mem_singleton] at he
      subst he
      exact hlook
    have h2 : SetsOk cc1 := by
      subst hrec
      intro e he
      simp only [List.nil_append] at he
      rw [List.mem_singleton] at he
      subst he
      exact ⟨cc0Set g, List.mem_singleton_self _, setEqI_refl _⟩
    have h3 : QueueInv cc1 := by
      subst hrec
      intro e he
      simp only [List.nil_append] at he
      rw [List.mem_singleton] at he
      subst he
      exact Or.inl (List.mem_singleton_self _)
    exact ccLoop_spec g (FirstAndFollow.new g) _ cc1 cc h1 h2 h3 h

theorem addAct_NES (εs : Symbol) (t t' : ActionTbl) (state : Nat)
    (sym : Symbol) (a : Action)
    (hcon : ∀ j, a = .shift j → sym ≠ εs)
    (hnes : NoEpsShift εs t)
    (h : addAct t state sym a = .ok t') : NoEpsShift εs t' := by
  unfold addAct at h
  cases hl : lookupAct t (state, sym) with
  | none =>
    simp only [hl] at h
    cases h
    intro st j hbad
    rw [lookupAct_append] at hbad
    cases hl2 : lookupAct t (st, εs) with
    | some b =>
      rw [hl2] at hbad
      exact hnes st j (hl2.trans hbad)
    | none =>
      rw [hl2] at hbad
      rw [lookupAct_cons] at hbad
      by_cases hk : ((state, sym) : Nat × Symbol) = (st, εs)
      · rw [if_pos hk] at hbad
        have hsym : sym = εs := congrArg Prod.snd hk
        exact hcon j (Option.some.inj hbad) hsym
      · rw [if_neg hk] at hbad
        cases hbad
  | some other =>
    simp only [hl] at h
    by_cases he : other = a
    · rw [if_pos he] at h
      cases h
      exact hnes
    · rw [if_neg he] at h
      split at h
      · rename_i j0 p0
        cases h
        intro st j hbad
        by_cases hk : ((st, εs) : Nat × Symbol) = (state, sym)
        · have hsym : εs = sym := congrArg Prod.snd hk
          exact hcon j0 rfl hsym.symm
        · rw [lookupAct_insertAct_ne t (state, sym) (st, εs) _ hk] at hbad
          exact hnes st j hbad
      · cases h
        exact hnes
      · cases h
      · cases h

theorem ptItem_NES (g : Grammar) (cc : CanonicalCollection) (i : Nat)
    (item : LR1Item) (t t' : ActionTbl)
    (hnes : NoEpsShift g.symbolDb.epsilon t)
    (h : ptItem g cc i item t = .ok t') : NoEpsShift g.symbolDb.epsilon t' := by
  cases hdot : item.symbolsAfterDot with
  | cons c rest0 =>
    unfold ptItem at h
    simp only [hdot] at h
    split at h
    · rename_i hc
      split at h
      · split at h
        · rename_i j hj
          exact addAct_NES _ t t' i c _ (fun j0 _ => hc.1) hnes h
        · cases h
          exact hnes
      · cases h
        exact hnes
    · split at h
      · exact addAct_NES _ t t' i item.lookahead _
          (fun j0 hj0 => by cases hj0) hnes h
      · cases h
  | nil =>
    unfold ptItem at h
    simp only [hdot] at h
    split at h
    · exact addAct_NES _ t t' i g.symbolDb.eoi _ (fun j0 hj0 => by cases hj0)
        hnes h
    · exact addAct_NES _ t t' i item.lookahead _ (fun j0 hj0 => by cases hj0)
        hnes h

theorem ptItems_NES (g : Grammar) (cc : CanonicalCollection) (i : Nat) :
    ∀ items : List LR1Item, ∀ t t' : ActionTbl,
    NoEpsShift g.symbolDb.epsilon t →
    ptItems g cc i items t = .ok t' → NoEpsShift g.symbolDb.epsilon t'
  | [], t, t', hnes, h => by
    unfold ptItems at h
    cases h
    exact hnes
  | item :: rest, t, t', hnes, h => by
    unfold ptItems at h
    obtain ⟨t1, ht1, hrest⟩ := exceptBind_ok _ _ _ h
    exact ptItems_NES g cc i rest t1 t' (ptItem_NES g cc i item t t1 hnes ht1)
      hrest

theorem addGoto_NEG (εs : Symbol) (t t' : GotoTbl) (i : Nat) (nt : Symbol)
    (j : Nat) (hnt : nt ≠ εs) (hneg : NoEpsGoto εs t)
    (h : addGoto t i nt j = .ok t') : NoEpsGoto εs t' := by
  unfold addGoto at h
  cases hl : lookupTr t (i, nt) with
  | some v => simp only [hl] at h; cases h
  | none =>
    simp only [hl] at h
    cases h
    intro st
    rw [lookupTr_append, hneg st, lookupTr_cons]
    rw [if_neg (fun hk => hnt (congrArg Prod.snd hk))]
    rfl

theorem ptGotos_NEG (εs : Symbol) (cc : CanonicalCollection) (i : Nat) :
    ∀ nts : List Symbol, (∀ nt ∈ nts, nt ≠ εs) →
    ∀ t t' : GotoTbl, NoEpsGoto εs t →
    ptGotos cc i nts t = .ok t' → NoEpsGoto εs t'
  | [], _, t, t', hneg, h => by
    unfold ptGotos at h
    cases h
    exact hneg
  | nt :: rest, hnts, t, t', hneg, h => by
    unfold ptGotos at h
    split at h
    · rename_i j hj
      obtain ⟨t1, ht1, hrest⟩ := exceptBind_ok _ _ _ h
      exact ptGotos_NEG εs cc i rest
        (fun x hx => hnts x (List.mem_cons_of_mem nt hx)) t1 t'
        (addGoto_NEG εs t t1 i nt j (hnts nt (List.mem_cons_self nt rest)) hneg
          ht1) hrest
    · exact ptGotos_NEG εs cc i rest
        (fun x hx => hnts x (List.mem_cons_of_mem nt hx)) t t' hneg h

theorem ptStates_inv (g : Grammar) (cc : CanonicalCollection)
    (hnt : ∀ nt ∈ g.symbolDb.nonTerminals, nt ≠ g.symbolDb.epsilon) :
    ∀ states : List (Nat × ItemSet), ∀ pt pt' : ParseTables,
    NoEpsShift g.symbolDb.epsilon pt.actionTable →
    NoEpsGoto g.symbolDb.epsilon pt.gotoTable →
    ptStates g cc states pt = .ok pt' →
    NoEpsShift g.symbolDb.epsilon pt'.actionTable ∧
    NoEpsGoto g.symbolDb.epsilon pt'.gotoTable
  | [], pt, pt', hnes, hneg, h => by
    unfold ptStates at h
    cases h
    exact ⟨hnes, hneg⟩
  | (i, s) :: rest, pt, pt', hnes, hneg, h => by
    unfold ptStates at h
    obtain ⟨at1, hat1, h2⟩ := exceptBind_ok _ _ _ h
    obtain ⟨gt1, hgt1, h3⟩ := exceptBind_ok _ _ _ h2
    exact ptStates_inv g cc hnt rest ⟨at1, gt1⟩ pt'
      (ptItems_NES g cc i s pt.actionTable at1 hnes hat1)
      (ptGotos_NEG g.symbolDb.epsilon cc i g.symbolDb.nonTerminals hnt
        pt.gotoTable gt1 hneg hgt1) h3

/-- C10: for every grammar whose canonical collection and parse tables build
(and whose ε symbol is not a nonterminal, as in every real symbol table):
(i)–(ii) every state whose item set has an item with ε immediately after the
dot has a recorded ε-transition, and the collection contains the target
state, whose item set contains the dot-advanced item `[A → ε·, a]`; and
(iii) no Shift action keyed on ε is ever added to the ACTION table, and no
GOTO entry is keyed on ε, so the ε-transitions and their target states are
never entered during parsing. -/
theorem epsilon_transitions (g : Grammar) (cc : CanonicalCollection)
    (pt : ParseTables) (hcc : ccBuild g = .ok cc) (hpt : ptBuild g = .ok pt)
    (hnt : g.symbolDb.epsilon ∉ g.symbolDb.nonTerminals) :
    (∀ n S, (n, S) ∈ cc.intToSet → ∀ item ∈ S, ∀ tl,
      item.symbolsAfterDot = g.symbolDb.epsilon :: tl →
      ∃ j Sj, lookupTr cc.transitions (n, g.symbolDb.epsilon) = some j ∧
        (j, Sj) ∈ cc.intToSet ∧
        (⟨item.production, item.dotPosition + 1, item.lookahead⟩ : LR1Item) ∈ Sj) ∧
    NoEpsShift g.symbolDb.epsilon pt.actionTable ∧
    NoEpsGoto g.symbolDb.epsilon pt.gotoTable := by
  refine ⟨?_, ?_⟩
  · intro n S hnS item hitem tl hdot
    exact ccBuild_done g cc hcc (n, S) hnS item hitem g.symbolDb.epsilon tl hdot
  · unfold ptBuild at hpt
    obtain ⟨cc0, hcc0, hstates⟩ := exceptBind_ok _ _ _ hpt
    exact ptStates_inv g cc0 (fun nt hmem heq => hnt (heq ▸ hmem))
      cc0.intToSet ⟨[], []⟩ pt (fun st j hbad => by cases hbad)
      (fun st => rfl) hstates

/-- Witness for C10 at `exGrammar`: state 0 contains `[E1 → ·ε, $]`
(production ⟨3, [2]⟩, dot 0, lookahead 1), whose suffix after the dot is
`[ε]` (ε = symbol 2). -/
theorem epsilon_transitions_witness :
    (∃ j Sj, lookupTr exCC.transitions (0, exGrammar.symbolDb.epsilon) = some j ∧
      (j, Sj) ∈ exCC.intToSet ∧
      (⟨⟨3, [2]⟩, 1, 1⟩ : LR1Item) ∈ Sj) ∧
    NoEpsShift exGrammar.symbolDb.epsilon exPT.actionTable ∧
    NoEpsGoto exGrammar.symbolDb.epsilon exPT.gotoTable := by
  have h := epsilon_transitions exGrammar exCC exPT rfl rfl (by decide)
  refine ⟨?_, h.2.1, h.2.2⟩
  have hmem : ((0 : Nat), (exCC.intToSet.head?.getD (0, [])).2) ∈
      exCC.intToSet := by decide
  have hin : (⟨⟨3, [2]⟩, 0, 1⟩ : LR1Item) ∈
      (exCC.intToSet.head?.getD (0, [])).2 := by decide
  have hdot : (⟨⟨3, [2]⟩, 0, 1⟩ : LR1Item).symbolsAfterDot =
      exGrammar.symbolDb.epsilon :: [] := by decide
  exact h.1 0 _ hmem _ hin [] hdot

end LR
